import Mathlib

/-!
Verification of the clap-trap headless CLAP host against its specification.

The development shallowly embeds the algorithmic core of the repository:
the MIDI variable-length-quantity codec, the tempo-map tick-to-second
conversion (MidiFile::computeTimes), the MIDI file writer and parser
(MidiFile::save / MidiFile::parseHeader / MidiFile::parseTrack), the WAV
sample quantization (WavFile::save / WavFile::load), the audio-buffer
validity check, the event-bus sinks, the MIDI replay loop of the notes
command, and the lifecycle call sequences of the validate driver and the
state command.

Conventions: C++ unsigned integers are modelled as Nat with explicit
reductions mod 2^w where the source can overflow; C++ doubles are
modelled as exact rationals (the spec states its timing laws in exact
arithmetic); byte buffers are lists of Nat.
-/

namespace ClapTrap

/-! ## Variable-length quantities (src/midi-file.cpp, readVLQ / writeVLQ)

The reader accumulates 7-bit groups into a uint32; the writer emits the
7-bit groups most-significant first, with the continuation bit 0x80 set
on every group except the last. -/

/-- Loop body of readVLQ: bytes are consumed until one with a clear
continuation bit; the accumulator is a uint32. Returns the decoded value
and the unconsumed bytes. -/
def readVLQAux : List Nat → Nat → Nat × List Nat
  | [], value => (value, [])
  | b :: rest, value =>
    let value2 := ((value <<< 7) % 4294967296) ||| (b &&& 0x7F)
    if b &&& 0x80 = 0 then (value2, rest) else readVLQAux rest value2

/-- readVLQ from src/midi-file.cpp: decode starting from accumulator 0. -/
def readVLQ (bytes : List Nat) : Nat × List Nat :=
  readVLQAux bytes 0

/-- The high 7-bit groups pushed by writeVLQ's while loop, least
significant first, each with the continuation bit set. -/
def vlqHigh (v : Nat) : List Nat :=
  if h : v = 0 then [] else ((v &&& 0x7F) ||| 0x80) :: vlqHigh (v >>> 7)
termination_by v
decreasing_by
  simpa [Nat.shiftRight_eq_div_pow] using Nat.div_lt_self (Nat.pos_of_ne_zero h) (by norm_num)

/-- writeVLQ from src/midi-file.cpp: the low group (no continuation bit)
is pushed first, the remaining groups follow, and the byte vector is
emitted in reverse, so the output is most-significant group first. -/
def writeVLQ (v : Nat) : List Nat :=
  (vlqHigh (v >>> 7)).reverse ++ [v &&& 0x7F]

/-! Bit-arithmetic helper lemmas. -/

theorem shiftLeft7_lor_eq_add (a d : Nat) (hd : d < 128) :
    a <<< 7 ||| d = a * 128 + d := by
  have hd7 : d < 2 ^ 7 := by norm_num; omega
  have hdi : ∀ i, 7 ≤ i → d.testBit i = false := by
    intro i hi
    exact Nat.testBit_eq_false_of_lt (lt_of_lt_of_le hd7 (Nat.pow_le_pow_right (by norm_num) hi))
  have hmod : (a <<< 7 ||| d) % 2 ^ 7 = d := by
    apply Nat.eq_of_testBit_eq
    intro i
    rw [Nat.testBit_mod_two_pow, Nat.testBit_lor, Nat.testBit_shiftLeft]
    by_cases h : i < 7
    · simp [h, Nat.not_le.mpr h]
    · simp [h, hdi i (Nat.not_lt.mp h)]
  have hdiv : (a <<< 7 ||| d) >>> 7 = a := by
    apply Nat.eq_of_testBit_eq
    intro i
    rw [Nat.testBit_shiftRight, Nat.testBit_lor, Nat.testBit_shiftLeft]
    simp [hdi (7 + i) (by omega), Nat.le_add_right]
  have hsplit := Nat.div_add_mod (a <<< 7 ||| d) (2 ^ 7)
  rw [hmod] at hsplit
  rw [Nat.shiftRight_eq_div_pow] at hdiv
  have h128 : (2 : Nat) ^ 7 = 128 := by norm_num
  rw [h128] at hsplit hdiv
  omega

theorem and_127_eq_mod (x : Nat) : x &&& 0x7F = x % 128 := by
  have h : (0x7F : Nat) = 2 ^ 7 - 1 := by norm_num
  rw [h, Nat.and_pow_two_sub_one_eq_mod]

theorem lor_128_eq_add (d : Nat) (hd : d < 128) : d ||| 0x80 = d + 128 := by
  have h1 : (0x80 : Nat) = 1 <<< 7 := by decide
  rw [Nat.lor_comm, h1, shiftLeft7_lor_eq_add 1 d hd]
  omega

theorem and_128_of_lt (d : Nat) (hd : d < 128) : d &&& 0x80 = 0 := by
  have h1 : (0x80 : Nat) = 2 ^ 7 := by norm_num
  have hd7 : d < 2 ^ 7 := by norm_num; omega
  rw [h1, Nat.and_two_pow, Nat.testBit_eq_false_of_lt hd7]
  simp

theorem highGroup_and_127 (x : Nat) : ((x &&& 0x7F) ||| 0x80) &&& 0x7F = x &&& 0x7F := by
  rw [and_127_eq_mod x, lor_128_eq_add (x % 128) (Nat.mod_lt _ (by norm_num)),
      and_127_eq_mod]
  omega

theorem and_128_ne_zero_of_testBit (y : Nat) (ht : y.testBit 7 = true) :
    y &&& 0x80 ≠ 0 := by
  have h1 : (0x80 : Nat) = 2 ^ 7 := by norm_num
  rw [h1, Nat.and_two_pow, ht]
  norm_num

theorem highGroup_and_128 (x : Nat) : ((x &&& 0x7F) ||| 0x80) &&& 0x80 ≠ 0 := by
  rw [and_127_eq_mod x, lor_128_eq_add (x % 128) (Nat.mod_lt _ (by norm_num))]
  apply and_128_ne_zero_of_testBit
  rw [Nat.testBit_to_div_mod]
  have hdv : (x % 128 + 128) / 2 ^ 7 = 1 := by
    have h2 := Nat.mod_lt x (show 0 < 128 by norm_num)
    have h3 : (2 : Nat) ^ 7 = 128 := by norm_num
    rw [h3]
    omega
  simp [hdv]

/-- One step of the accumulator update, in plain arithmetic: when the
running value fits in uint32, the shift-or update is multiply-add. -/
theorem readVLQAux_step (acc d : Nat) (hfit : acc * 128 + (d &&& 0x7F) < 4294967296) :
    ((acc <<< 7) % 4294967296) ||| (d &&& 0x7F) = acc * 128 + (d &&& 0x7F) := by
  have hs : acc <<< 7 = acc * 128 := by rw [Nat.shiftLeft_eq]
  have hm : (acc <<< 7) % 4294967296 = acc * 128 := by
    rw [hs]; exact Nat.mod_eq_of_lt (by omega)
  have hlt : d &&& 0x7F < 128 := by
    rw [and_127_eq_mod]; exact Nat.mod_lt d (by norm_num)
  rw [hm, ← hs, shiftLeft7_lor_eq_add acc (d &&& 0x7F) hlt, hs]

/-- The arithmetic digit-accumulation step. -/
def vlqStep (a d : Nat) : Nat := a * 128 + (d &&& 0x7F)

theorem vlqStep_le (a d : Nat) : a ≤ vlqStep a d := by
  unfold vlqStep
  have : a ≤ a * 128 := Nat.le_mul_of_pos_right a (by norm_num)
  omega

theorem le_foldl_vlqStep (l : List Nat) : ∀ a : Nat, a ≤ l.foldl vlqStep a := by
  induction l with
  | nil => intro a; simp
  | cons d l ih =>
    intro a
    simpa using le_trans (vlqStep_le a d) (ih (vlqStep a d))

/-- Processing a run of continuation-bit bytes followed by a terminator
byte accumulates the 7-bit digits and stops exactly at the terminator,
provided the assembled value fits in uint32. -/
theorem readVLQAux_run (ds : List Nat) :
    ∀ acc low extra, (∀ d ∈ ds, d &&& 0x80 ≠ 0) → low &&& 0x80 = 0 →
    (ds ++ [low]).foldl vlqStep acc < 4294967296 →
    readVLQAux (ds ++ low :: extra) acc = ((ds ++ [low]).foldl vlqStep acc, extra) := by
  induction ds with
  | nil =>
    intro acc low extra _ hlow hfit
    simp only [List.nil_append, List.foldl_cons, List.foldl_nil] at hfit ⊢
    rw [readVLQAux]
    simp only [hlow, if_pos rfl]
    rw [readVLQAux_step acc low hfit]
    rfl
  | cons d ds ih =>
    intro acc low extra hds hlow hfit
    have hd : d &&& 0x80 ≠ 0 := hds d (by simp)
    have hstepfit : vlqStep acc d < 4294967296 := by
      have := le_foldl_vlqStep (ds ++ [low]) (vlqStep acc d)
      simp only [List.cons_append, List.foldl_cons] at hfit
      omega
    rw [List.cons_append, readVLQAux]
    simp only [if_neg hd]
    rw [readVLQAux_step acc d (by unfold vlqStep at hstepfit; omega)]
    have heq : acc * 128 + (d &&& 0x7F) = vlqStep acc d := rfl
    rw [heq, ih (vlqStep acc d) low extra (fun x hx => hds x (by simp [hx])) hlow
      (by simpa using hfit)]
    simp

theorem vlqHigh_continuation (v : Nat) : ∀ d ∈ vlqHigh v, d &&& 0x80 ≠ 0 := by
  induction v using Nat.strong_induction_on with
  | _ v ih =>
    intro d hd
    rw [vlqHigh] at hd
    by_cases h : v = 0
    · simp [h] at hd
    · rw [dif_neg h] at hd
      rcases List.mem_cons.mp hd with h1 | h1
      · subst h1; exact highGroup_and_128 v
      · exact ih (v >>> 7)
          (by simpa [Nat.shiftRight_eq_div_pow] using
            Nat.div_lt_self (Nat.pos_of_ne_zero h) (by norm_num)) d h1

theorem foldl_vlqHigh_reverse (v : Nat) :
    ∀ a : Nat, (vlqHigh v).reverse.foldl vlqStep a = a * 128 ^ (vlqHigh v).length + v := by
  induction v using Nat.strong_induction_on with
  | _ v ih =>
    intro a
    rw [vlqHigh]
    by_cases h : v = 0
    · simp [h]
    · rw [dif_neg h]
      simp only [List.reverse_cons, List.foldl_append, List.foldl_cons,
        List.foldl_nil, List.length_cons]
      rw [ih (v >>> 7)
        (by simpa [Nat.shiftRight_eq_div_pow] using
          Nat.div_lt_self (Nat.pos_of_ne_zero h) (by norm_num)) a]
      unfold vlqStep
      rw [highGroup_and_127, and_127_eq_mod]
      have hshift : v >>> 7 = v / 128 := by
        rw [Nat.shiftRight_eq_div_pow]
      have hpow : (128 : Nat) ^ ((vlqHigh (v >>> 7)).length + 1)
          = 128 ^ (vlqHigh (v >>> 7)).length * 128 := by ring
      rw [hpow, ← Nat.mul_assoc]
      generalize a * 128 ^ (vlqHigh (v >>> 7)).length = P
      rw [hshift]
      omega

theorem writeVLQ_spec (v : Nat) :
    writeVLQ v = (vlqHigh (v >>> 7)).reverse ++ [v &&& 0x7F] := rfl

/-- The VLQ round trip at the heart of claims about MIDI serialization:
reading back an encoded uint32 yields the value and consumes exactly the
encoded bytes. -/
theorem readVLQ_writeVLQ (v : Nat) (hv : v < 4294967296) (extra : List Nat) :
    readVLQ (writeVLQ v ++ extra) = (v, extra) := by
  unfold readVLQ writeVLQ
  rw [List.append_assoc, List.singleton_append,
    readVLQAux_run ((vlqHigh (v >>> 7)).reverse) 0 (v &&& 0x7F) extra
      (fun d hd => vlqHigh_continuation (v >>> 7) d (List.mem_reverse.mp hd))
      (by
        apply and_128_of_lt
        rw [and_127_eq_mod]
        exact Nat.mod_lt v (by norm_num))]
  · congr 1
    rw [List.foldl_append, foldl_vlqHigh_reverse (v >>> 7) 0]
    simp only [List.foldl_cons, List.foldl_nil]
    unfold vlqStep
    rw [Nat.zero_mul, Nat.zero_add, Nat.and_assoc]
    norm_num
    rw [and_127_eq_mod, Nat.shiftRight_eq_div_pow]
    have := Nat.div_add_mod v 128
    norm_num
    omega
  · rw [List.foldl_append, foldl_vlqHigh_reverse (v >>> 7) 0]
    simp only [List.foldl_cons, List.foldl_nil]
    unfold vlqStep
    rw [Nat.zero_mul, Nat.zero_add, Nat.and_assoc]
    norm_num
    rw [and_127_eq_mod, Nat.shiftRight_eq_div_pow]
    have := Nat.div_add_mod v 128
    norm_num
    omega

/-- C10: for every 32-bit unsigned value v, writing v with writeVLQ and
reading the produced bytes back with readVLQ yields exactly v and
consumes exactly the bytes that were written, for any trailing bytes. -/
theorem vlq_round_trip (v : Nat) (extra : List Nat) (hv : v < 4294967296) :
    readVLQ (writeVLQ v ++ extra) = (v, extra) :=
  readVLQ_writeVLQ v hv extra

/-- Witness for C10 at the concrete value 123456789 with a trailing byte. -/
theorem vlq_round_trip_witness :
    readVLQ (writeVLQ 123456789 ++ [7]) = (123456789, [7]) :=
  vlq_round_trip 123456789 [7] (by norm_num)

/-! ## Tempo map and tick-to-second conversion (MidiFile::computeTimes)

The C++ doubles are modelled as exact rationals. -/

/-- TempoChange from include/clap-trap/midi-file.h: a (tick,
microseconds-per-quarter-note) breakpoint collected during parsing. -/
structure TempoChange where
  tick : Nat
  uspq : Nat
deriving DecidableEq, Repr

/-- TimePoint from MidiFile::computeTimes: a tick, the seconds
accumulated up to that tick, and the tempo in effect after it. -/
structure TimePoint where
  tick : Nat
  seconds : ℚ
  uspq : Nat
deriving DecidableEq, Repr

/-- The denominator ticksPerQuarter * 1,000,000.0 of the conversion. -/
def tickDen (tpq : Nat) : ℚ := (tpq : ℚ) * 1000000

/-- Seconds spanned by deltaTicks ticks at a fixed tempo:
deltaTicks * microsecondsPerQuarter / (ticksPerQuarter * 1,000,000). -/
def segSeconds (tpq deltaTicks uspq : Nat) : ℚ :=
  (deltaTicks : ℚ) * (uspq : ℚ) / tickDen tpq

/-- The loop of MidiFile::computeTimes over the sorted tempo map, with
state (headUspq, lastTick, currentTempo, cumulativeSeconds). An entry at
tick 0 overwrites the tempo stored in timeMap[0] (headUspq) and the
running tempo; an entry at a positive tick closes the current segment
and appends a breakpoint. Returns the final timeMap[0] tempo and the
appended breakpoints. -/
def computeLoop (tpq : Nat) : List TempoChange → Nat → Nat → Nat → ℚ → Nat × List TimePoint
  | [], headU, _, _, _ => (headU, [])
  | tc :: rest, headU, lastTick, curTempo, cum =>
    if tc.tick = 0 then
      computeLoop tpq rest tc.uspq lastTick tc.uspq cum
    else
      let cum2 := cum + segSeconds tpq (tc.tick - lastTick) curTempo
      let r := computeLoop tpq rest headU tc.tick tc.uspq cum2
      (r.1, ⟨tc.tick, cum2, tc.uspq⟩ :: r.2)

/-- The order of the std::sort call in computeTimes (ascending tick,
ties in unspecified order; an insertion sort realizes one valid
std::sort outcome and is computable by the kernel). -/
def tempoRel (a b : TempoChange) : Prop := a.tick ≤ b.tick

instance : DecidableRel tempoRel := fun a b => Nat.decLe a.tick b.tick

instance : IsTotal TempoChange tempoRel := ⟨fun a b => Nat.le_total a.tick b.tick⟩

instance : IsTrans TempoChange tempoRel := ⟨fun _ _ _ => Nat.le_trans⟩

/-- The std::sort call of computeTimes. -/
def sortTempo (l : List TempoChange) : List TempoChange := l.insertionSort tempoRel

/-- The seeding of currentTempo in computeTimes: the first breakpoint's
tempo when it sits at tick 0, the 120 BPM default otherwise. -/
def initTempo : List TempoChange → Nat
  | [] => 500000
  | h :: _ => if h.tick = 0 then h.uspq else 500000

/-- The timeMap built by MidiFile::computeTimes: insert the default
500000 (120 BPM) breakpoint when the tempo map is empty, sort by tick,
seed the running tempo from a first entry at tick 0 (500000 otherwise),
run the loop, and prepend the tick-0 origin point. -/
def timeMapOf (tpq : Nat) (sorted : List TempoChange) : List TimePoint :=
  ⟨0, 0, (computeLoop tpq sorted (initTempo sorted) 0 (initTempo sorted) 0).1⟩
    :: (computeLoop tpq sorted (initTempo sorted) 0 (initTempo sorted) 0).2

def buildTimeMap (tpq : Nat) (tempoMap : List TempoChange) : List TimePoint :=
  timeMapOf tpq (sortTempo (if tempoMap.isEmpty then [⟨0, 500000⟩] else tempoMap))

/-- The linear search of the tickToSeconds lambda: starting from the
first time point, advance past every later point whose tick is at most
the target tick. -/
def lookupTP (tick : Nat) : TimePoint → List TimePoint → TimePoint
  | tp, [] => tp
  | tp, q :: rest => if tick < q.tick then tp else lookupTP tick q rest

/-- Extrapolation from a time point, as in the tickToSeconds lambda:
tp.seconds + (tick - tp.tick) * tp.microsecondsPerQuarter / denominator. -/
def evalTP (tpq : Nat) (tp : TimePoint) (t : Nat) : ℚ :=
  tp.seconds + segSeconds tpq (t - tp.tick) tp.uspq

/-- The tickToSeconds lambda of MidiFile::computeTimes. -/
def tickToSeconds (tpq : Nat) (timeMap : List TimePoint) (tick : Nat) : ℚ :=
  match timeMap with
  | [] => 0
  | h :: rest => evalTP tpq (lookupTP tick h rest) tick

/-- The loop of computeTimes restricted to breakpoints with positive
ticks, which never touch the head entry. -/
def computePos (tpq : Nat) : List TempoChange → Nat → Nat → ℚ → List TimePoint
  | [], _, _, _ => []
  | tc :: rest, lastTick, curTempo, cum =>
    let cum2 := cum + segSeconds tpq (tc.tick - lastTick) curTempo
    ⟨tc.tick, cum2, tc.uspq⟩ :: computePos tpq rest tc.tick tc.uspq cum2

/-- The specification's conversion, stated from the spec text: walk the
breakpoints in tick order accumulating seconds segment by segment; at
the last breakpoint at or before the target tick, linearly extrapolate
with that breakpoint's tempo. The state (lastTick, curU, base) starts
at tick 0 with the default 500000 microseconds per quarter (120 BPM),
which also covers a file with no tempo events. -/
def specGo (tpq : Nat) : List TempoChange → Nat → Nat → ℚ → Nat → ℚ
  | [], lastTick, curU, base, t => base + segSeconds tpq (t - lastTick) curU
  | bp :: rest, lastTick, curU, base, t =>
    if t < bp.tick then base + segSeconds tpq (t - lastTick) curU
    else specGo tpq rest bp.tick bp.uspq (base + segSeconds tpq (bp.tick - lastTick) curU) t

/-- Tick-to-second conversion as the spec words it. -/
def specSeconds (tpq : Nat) (tm : List TempoChange) (t : Nat) : ℚ :=
  specGo tpq tm 0 500000 0 t

theorem tickToSeconds_cons (tpq : Nat) (h : TimePoint) (rest : List TimePoint) (t : Nat) :
    tickToSeconds tpq (h :: rest) t = evalTP tpq (lookupTP t h rest) t := rfl

theorem lookupTP_cons (t : Nat) (tp q : TimePoint) (rest : List TimePoint) :
    lookupTP t tp (q :: rest) = if t < q.tick then tp else lookupTP t q rest := rfl

theorem computeLoop_no_zero (tpq : Nat) (l : List TempoChange) :
    ∀ headU lastTick curTempo cum, (∀ e ∈ l, e.tick ≠ 0) →
    computeLoop tpq l headU lastTick curTempo cum
      = (headU, computePos tpq l lastTick curTempo cum) := by
  induction l with
  | nil => intros; rfl
  | cons tc rest ih =>
    intro headU lastTick curTempo cum hz
    rw [computeLoop, computePos, if_neg (hz tc (by simp))]
    dsimp only
    rw [ih headU tc.tick tc.uspq _ (fun e he => hz e (by simp [he]))]

theorem lookup_computePos_spec (tpq : Nat) (l : List TempoChange) :
    ∀ lastTick curU cum t,
    evalTP tpq (lookupTP t ⟨lastTick, cum, curU⟩ (computePos tpq l lastTick curU cum)) t
      = specGo tpq l lastTick curU cum t := by
  induction l with
  | nil => intros; rfl
  | cons bp rest ih =>
    intro lastTick curU cum t
    rw [computePos, specGo, lookupTP]
    by_cases h : t < bp.tick
    · rw [if_pos h, if_pos h]
      rfl
    · rw [if_neg h, if_neg h]
      exact ih bp.tick bp.uspq _ t

theorem segSeconds_zero (tpq uspq : Nat) : segSeconds tpq 0 uspq = 0 := by
  unfold segSeconds
  norm_num

theorem tickToSeconds_buildLoop_spec (tpq : Nat) (l : List TempoChange) :
    ∀ u t, l.Pairwise (fun a b => a.tick ≤ b.tick) →
    tickToSeconds tpq
      (⟨0, 0, (computeLoop tpq l u 0 u 0).1⟩ :: (computeLoop tpq l u 0 u 0).2) t
      = specGo tpq l 0 u 0 t := by
  induction l with
  | nil => intros; rfl
  | cons tc rest ih =>
    intro u t hp
    rcases List.pairwise_cons.mp hp with ⟨hhead, hrest⟩
    by_cases hz : tc.tick = 0
    · rw [computeLoop, if_pos hz, specGo, if_neg (by omega)]
      rw [ih tc.uspq t hrest, hz]
      rw [Nat.sub_zero, segSeconds_zero, add_zero]
    · rw [computeLoop, if_neg hz]
      dsimp only
      have hnz : ∀ e ∈ rest, e.tick ≠ 0 := by
        intro e he
        have := hhead e he
        omega
      rw [computeLoop_no_zero tpq rest u tc.tick tc.uspq _ hnz]
      rw [specGo, tickToSeconds_cons, lookupTP_cons]
      by_cases h : t < tc.tick
      · rw [if_pos h, if_pos h]
        rfl
      · rw [if_neg h, if_neg h]
        exact lookup_computePos_spec tpq rest tc.tick tc.uspq _ t

theorem sortTempo_tick_sorted (l : List TempoChange) :
    (sortTempo l).Pairwise (fun a b => a.tick ≤ b.tick) :=
  List.sorted_insertionSort tempoRel l

theorem sortTempo_of_sorted (l : List TempoChange)
    (hs : l.Pairwise (fun a b => a.tick ≤ b.tick)) : sortTempo l = l :=
  List.Sorted.insertionSort_eq hs

/-- Refinement of the tickToSeconds lambda against the spec formula, for
a tick-sorted tempo map (the invariant the spec states for tempo maps). -/
theorem specGo_nil (tpq lastTick curU : Nat) (base : ℚ) (t : Nat) :
    specGo tpq [] lastTick curU base t = base + segSeconds tpq (t - lastTick) curU := rfl

theorem specGo_cons (tpq : Nat) (bp : TempoChange) (rest : List TempoChange)
    (lastTick curU : Nat) (base : ℚ) (t : Nat) :
    specGo tpq (bp :: rest) lastTick curU base t =
      if t < bp.tick then base + segSeconds tpq (t - lastTick) curU
      else specGo tpq rest bp.tick bp.uspq (base + segSeconds tpq (bp.tick - lastTick) curU) t :=
  rfl

theorem timeMapOf_tickToSeconds_spec (tpq : Nat) (l : List TempoChange)
    (hs : l.Pairwise (fun a b => a.tick ≤ b.tick)) (t : Nat) :
    tickToSeconds tpq (timeMapOf tpq l) t = specGo tpq l 0 500000 0 t := by
  unfold timeMapOf
  cases l with
  | nil => rfl
  | cons h rest =>
    by_cases hz : h.tick = 0
    · have hinit : initTempo (h :: rest) = h.uspq := by
        show (if h.tick = 0 then h.uspq else 500000) = h.uspq
        rw [if_pos hz]
      rw [hinit, tickToSeconds_buildLoop_spec tpq (h :: rest) h.uspq t hs]
      rw [specGo_cons, specGo_cons, if_neg (by omega), if_neg (by omega)]
      simp [hz, segSeconds_zero]
    · have hinit : initTempo (h :: rest) = 500000 := by
        show (if h.tick = 0 then h.uspq else 500000) = 500000
        rw [if_neg hz]
      rw [hinit]
      exact tickToSeconds_buildLoop_spec tpq (h :: rest) 500000 t hs

theorem tickToSeconds_buildTimeMap_spec (tpq : Nat) (tm : List TempoChange)
    (hs : tm.Pairwise (fun a b => a.tick ≤ b.tick)) (t : Nat) :
    tickToSeconds tpq (buildTimeMap tpq tm) t = specSeconds tpq tm t := by
  unfold buildTimeMap specSeconds
  cases tm with
  | nil =>
    rw [if_pos (show ([] : List TempoChange).isEmpty = true from rfl),
        sortTempo_of_sorted _ (by simp)]
    rw [timeMapOf_tickToSeconds_spec tpq [⟨0, 500000⟩] (by simp) t]
    rw [specGo_cons, if_neg (by simp), specGo_nil, specGo_nil]
    simp [segSeconds_zero]
  | cons h rest =>
    rw [if_neg (by simp), sortTempo_of_sorted (h :: rest) hs]
    exact timeMapOf_tickToSeconds_spec tpq (h :: rest) hs t

/-! Monotonicity of the conversion. -/

/-- Consecutive time points are linked: ticks are non-decreasing and
each breakpoint's seconds equals the previous segment extended exactly
to its tick (the incremental accumulation of computeTimes). -/
def linked (tpq : Nat) : TimePoint → List TimePoint → Prop
  | _, [] => True
  | p, q :: rest =>
    p.tick ≤ q.tick ∧ q.seconds = p.seconds + segSeconds tpq (q.tick - p.tick) p.uspq ∧
      linked tpq q rest

theorem linked_nil (tpq : Nat) (p : TimePoint) : linked tpq p [] := trivial

theorem linked_cons (tpq : Nat) (p q : TimePoint) (rest : List TimePoint) :
    linked tpq p (q :: rest) ↔
      (p.tick ≤ q.tick ∧ q.seconds = p.seconds + segSeconds tpq (q.tick - p.tick) p.uspq ∧
        linked tpq q rest) := Iff.rfl

theorem segSeconds_nonneg (tpq d u : Nat) : 0 ≤ segSeconds tpq d u := by
  unfold segSeconds tickDen
  positivity

theorem segSeconds_mono (tpq d1 d2 u : Nat) (h : d1 ≤ d2) :
    segSeconds tpq d1 u ≤ segSeconds tpq d2 u := by
  unfold segSeconds tickDen
  rcases eq_or_lt_of_le (show (0 : ℚ) ≤ (tpq : ℚ) * 1000000 by positivity) with h0 | h0
  · rw [← h0, div_zero, div_zero]
  · refine (div_le_div_right h0).mpr ?_
    exact mul_le_mul_of_nonneg_right (by exact_mod_cast h) (by positivity)

theorem evalTP_mono (tpq : Nat) (p : TimePoint) {t1 t2 : Nat} (h : t1 ≤ t2) :
    evalTP tpq p t1 ≤ evalTP tpq p t2 := by
  unfold evalTP
  have := segSeconds_mono tpq (t1 - p.tick) (t2 - p.tick) p.uspq
    (Nat.sub_le_sub_right h p.tick)
  linarith

theorem seconds_le_lookup_eval (tpq : Nat) (rest : List TimePoint) :
    ∀ q t, linked tpq q rest → q.tick ≤ t →
    q.seconds ≤ evalTP tpq (lookupTP t q rest) t := by
  induction rest with
  | nil =>
    intro q t _ _
    show q.seconds ≤ evalTP tpq q t
    have := segSeconds_nonneg tpq (t - q.tick) q.uspq
    unfold evalTP
    linarith
  | cons r rest ih =>
    intro q t hl hqt
    obtain ⟨hqr, hrs, hrest⟩ := (linked_cons tpq q r rest).mp hl
    rw [lookupTP_cons]
    by_cases h : t < r.tick
    · rw [if_pos h]
      have := segSeconds_nonneg tpq (t - q.tick) q.uspq
      unfold evalTP
      linarith
    · rw [if_neg h]
      have h2 : r.tick ≤ t := Nat.le_of_not_lt h
      have ha := ih r t hrest h2
      have hb := segSeconds_nonneg tpq (r.tick - q.tick) q.uspq
      linarith

theorem lookup_eval_mono (tpq : Nat) (rest : List TimePoint) :
    ∀ p t1 t2, linked tpq p rest → t1 ≤ t2 →
    evalTP tpq (lookupTP t1 p rest) t1 ≤ evalTP tpq (lookupTP t2 p rest) t2 := by
  induction rest with
  | nil =>
    intro p t1 t2 _ h12
    exact evalTP_mono tpq p h12
  | cons q rest ih =>
    intro p t1 t2 hl h12
    obtain ⟨hpq, hqs, hrest⟩ := (linked_cons tpq p q rest).mp hl
    rw [lookupTP_cons, lookupTP_cons]
    by_cases h2 : t2 < q.tick
    · rw [if_pos (lt_of_le_of_lt h12 h2), if_pos h2]
      exact evalTP_mono tpq p h12
    · rw [if_neg h2]
      by_cases h1 : t1 < q.tick
      · rw [if_pos h1]
        have ha : evalTP tpq p t1 ≤ evalTP tpq p q.tick := evalTP_mono tpq p (le_of_lt h1)
        have hb : evalTP tpq p q.tick = q.seconds := by
          unfold evalTP
          rw [hqs]
        have hc := seconds_le_lookup_eval tpq rest q t2 hrest (Nat.le_of_not_lt h2)
        linarith
      · rw [if_neg h1]
        exact ih q t1 t2 hrest h12

theorem linked_computePos (tpq : Nat) (l : List TempoChange) :
    ∀ lastTick curU cum, l.Pairwise (fun a b => a.tick ≤ b.tick) →
    (∀ e ∈ l, lastTick ≤ e.tick) →
    linked tpq ⟨lastTick, cum, curU⟩ (computePos tpq l lastTick curU cum) := by
  induction l with
  | nil => intros; exact linked_nil tpq _
  | cons tc rest ih =>
    intro lastTick curU cum hp hge
    rcases List.pairwise_cons.mp hp with ⟨hhead, hrest⟩
    rw [computePos]
    refine (linked_cons tpq _ _ _).mpr ⟨hge tc (by simp), rfl, ?_⟩
    exact ih tc.tick tc.uspq _ hrest hhead

theorem linked_computeLoop (tpq : Nat) (l : List TempoChange) :
    ∀ u lt cum, l.Pairwise (fun a b => a.tick ≤ b.tick) → (∀ e ∈ l, lt ≤ e.tick) →
    linked tpq ⟨lt, cum, (computeLoop tpq l u lt u cum).1⟩ (computeLoop tpq l u lt u cum).2 := by
  induction l with
  | nil => intros; exact linked_nil tpq _
  | cons tc rest ih =>
    intro u lt cum hp hge
    rcases List.pairwise_cons.mp hp with ⟨hhead, hrest⟩
    by_cases hz : tc.tick = 0
    · rw [computeLoop, if_pos hz]
      refine ih tc.uspq lt cum hrest ?_
      intro e he
      have h1 := hge tc (by simp)
      have h2 := hhead e he
      omega
    · rw [computeLoop, if_neg hz]
      dsimp only
      have hnz : ∀ e ∈ rest, e.tick ≠ 0 := by
        intro e he
        have := hhead e he
        omega
      rw [computeLoop_no_zero tpq rest u tc.tick tc.uspq _ hnz]
      refine (linked_cons tpq _ _ _).mpr ⟨hge tc (by simp), rfl, ?_⟩
      exact linked_computePos tpq rest tc.tick tc.uspq _ hrest hhead

/-! ## Events and the per-event time assignment of computeTimes -/

/-- MidiEvent from include/clap-trap/midi-file.h: absolute tick time,
absolute second time (computed after the tempo map), status type with
channel stripped, channel, and two data bytes. -/
structure MidiEvent where
  tickTime : Nat
  secondTime : ℚ
  type : Nat
  channel : Nat
  data1 : Nat
  data2 : Nat
deriving DecidableEq, Repr

/-- MidiEvent::isNoteOn: a 0x90 status with nonzero velocity. -/
def MidiEvent.isNoteOn (e : MidiEvent) : Bool :=
  e.type == 0x90 && e.data2 > 0

/-- MidiEvent::isNoteOff: a 0x80 status, or a 0x90 status with zero
velocity. -/
def MidiEvent.isNoteOff (e : MidiEvent) : Bool :=
  e.type == 0x80 || (e.type == 0x90 && e.data2 == 0)

/-- The event loop at the end of MidiFile::computeTimes: every event's
secondTime is set to tickToSeconds of its tickTime. -/
def computeTimesEvents (tpq : Nat) (tempoMap : List TempoChange)
    (events : List MidiEvent) : List MidiEvent :=
  events.map fun e =>
    { e with secondTime := tickToSeconds tpq (buildTimeMap tpq tempoMap) e.tickTime }

/-- C1: after parsing, every event's secondTime is the incremental
tempo-map conversion of its tickTime — seconds(tick) = bp.seconds +
(tick - bp.tick) * microsecondsPerQuarter / (ticksPerQuarter * 10^6)
for the last breakpoint bp at or before the tick, with breakpoint
seconds accumulated segment by segment and a default of 500000 us per
quarter when the file has no tempo event; in particular a
480-ticks-per-quarter file at 120 BPM with a change to 240 BPM at tick
480 gives events at ticks 0, 480, 960 the times 0, 1/2 and 3/4 seconds
(not 1 for tick 960). -/
theorem computeTimes_secondTime_spec (tpq : Nat) (tempoMap : List TempoChange)
    (events : List MidiEvent)
    (hs : tempoMap.Pairwise (fun a b => a.tick ≤ b.tick)) :
    (∀ e ∈ computeTimesEvents tpq tempoMap events,
        e.secondTime = specSeconds tpq tempoMap e.tickTime)
    ∧ (computeTimesEvents 480 [⟨0, 500000⟩, ⟨480, 250000⟩]
        [⟨0, 0, 0x90, 0, 60, 100⟩, ⟨480, 0, 0x80, 0, 60, 64⟩,
          ⟨960, 0, 0x90, 0, 62, 100⟩]).map MidiEvent.secondTime = [0, 1/2, 3/4] := by
  constructor
  · intro e he
    rcases List.mem_map.mp he with ⟨e0, _, rfl⟩
    simpa using tickToSeconds_buildTimeMap_spec tpq tempoMap hs e0.tickTime
  · have h0 := tickToSeconds_buildTimeMap_spec 480 [⟨0, 500000⟩, ⟨480, 250000⟩] (by decide)
    unfold computeTimesEvents
    simp only [List.map_cons, List.map_nil]
    rw [h0 0, h0 480, h0 960]
    norm_num [specSeconds, specGo, segSeconds, tickDen]

/-- Witness for C1: the concrete scenario of the claim, via the theorem
at ticksPerQuarter 480 with the two-breakpoint tempo map. -/
theorem computeTimes_secondTime_spec_witness :
    (computeTimesEvents 480 [⟨0, 500000⟩, ⟨480, 250000⟩]
        [⟨0, 0, 0x90, 0, 60, 100⟩, ⟨480, 0, 0x80, 0, 60, 64⟩,
          ⟨960, 0, 0x90, 0, 62, 100⟩]).map MidiEvent.secondTime = [0, 1/2, 3/4] :=
  (computeTimes_secondTime_spec 480 [⟨0, 500000⟩, ⟨480, 250000⟩] []
    (by simp)).2

/-- C2: the tick-to-second conversion built by computeTimes is
monotonic for every tempo map (empty, default, or with any number of
breakpoints in any order before sorting): t1 < t2 implies
seconds(t1) ≤ seconds(t2). -/
theorem tickToSeconds_monotone (tpq : Nat) (tm : List TempoChange) (t1 t2 : Nat)
    (h : t1 < t2) :
    tickToSeconds tpq (buildTimeMap tpq tm) t1 ≤ tickToSeconds tpq (buildTimeMap tpq tm) t2 := by
  unfold buildTimeMap timeMapOf
  rw [tickToSeconds_cons, tickToSeconds_cons]
  apply lookup_eval_mono
  · exact linked_computeLoop tpq _ _ 0 0
      (sortTempo_tick_sorted _) (fun e _ => Nat.zero_le _)
  · exact le_of_lt h

/-- Witness for C2 at the concrete two-breakpoint tempo map of the
spec scenario, ticks 480 < 960. -/
theorem tickToSeconds_monotone_witness :
    tickToSeconds 480 (buildTimeMap 480 [⟨0, 500000⟩, ⟨480, 250000⟩]) 480
      ≤ tickToSeconds 480 (buildTimeMap 480 [⟨0, 500000⟩, ⟨480, 250000⟩]) 960 :=
  tickToSeconds_monotone 480 [⟨0, 500000⟩, ⟨480, 250000⟩] 480 960 (by norm_num)

/-! ## Audio buffer validity (src/audio-buffers.cpp, outputIsValid)

Floats are modelled by their classification: a finite value (carried as
an exact rational) or one of the non-finite values std::isnan and
std::isinf detect. -/

/-- A float sample as the validity check sees it. -/
inductive Sample where
  | finite (val : ℚ)
  | nan
  | posInf
  | negInf
deriving DecidableEq, Repr

/-- std::isnan. -/
def Sample.isNan : Sample → Bool
  | .nan => true
  | _ => false

/-- std::isinf. -/
def Sample.isInf : Sample → Bool
  | .posInf => true
  | .negInf => true
  | _ => false

/-- A sample that is neither NaN nor infinite. -/
def Sample.isFinite : Sample → Bool
  | .finite _ => true
  | _ => false

/-- The inner loop of outputIsValid over one channel: return false at
the first NaN or infinite sample. -/
def outputIsValidChannel : List Sample → Bool
  | [] => true
  | s :: rest => if s.isNan || s.isInf then false else outputIsValidChannel rest

/-- AudioBuffers::outputIsValid from src/audio-buffers.cpp: scan every
channel; false propagates out of the early return. -/
def outputIsValid : List (List Sample) → Bool
  | [] => true
  | ch :: rest => if outputIsValidChannel ch = false then false else outputIsValid rest

/-- StereoAudioBuffers::outputIsValid: the fixed two-channel variant of
the same loop. -/
def stereoOutputIsValid (left right : List Sample) : Bool :=
  outputIsValid [left, right]

theorem Sample.not_finite_iff (s : Sample) :
    ¬(s.isFinite = true) ↔ (s.isNan = true ∨ s.isInf = true) := by
  cases s <;> simp [Sample.isNan, Sample.isInf, Sample.isFinite]

theorem outputIsValidChannel_iff (ch : List Sample) :
    outputIsValidChannel ch = true ↔ ∀ s ∈ ch, s.isFinite = true := by
  induction ch with
  | nil => simp [outputIsValidChannel]
  | cons s rest ih =>
    rw [outputIsValidChannel]
    cases hs : (s.isNan || s.isInf)
    · rw [if_neg (by simp [hs])]
      have hfin : s.isFinite = true := by
        cases s <;> simp_all [Sample.isNan, Sample.isInf, Sample.isFinite]
      simp [ih, hfin]
    · rw [if_pos (by simp [hs])]
      have hfin : ¬(s.isFinite = true) := by
        rw [Sample.not_finite_iff]
        simpa using hs
      constructor
      · intro hfalse
        cases hfalse
      · intro hforall
        exact absurd (hforall s (by simp)) hfin

theorem outputIsValid_true_iff (cs : List (List Sample)) :
    outputIsValid cs = true ↔ ∀ ch ∈ cs, ∀ s ∈ ch, s.isFinite = true := by
  induction cs with
  | nil => simp [outputIsValid]
  | cons ch rest ih =>
    rw [outputIsValid]
    cases hch : outputIsValidChannel ch
    · rw [if_pos rfl]
      have hbad : ¬ ∀ s ∈ ch, s.isFinite = true := by
        rw [← outputIsValidChannel_iff, hch]
        simp
      constructor
      · intro hfalse
        cases hfalse
      · intro hforall
        exact absurd (fun s hsm => hforall ch (by simp) s hsm) hbad
    · rw [if_neg (by simp), ih]
      have hchAll := (outputIsValidChannel_iff ch).mp hch
      constructor
      · intro hrest c hc
        rcases List.mem_cons.mp hc with rfl | hc2
        · exact hchAll
        · exact hrest c hc2
      · intro hall c hc
        exact hall c (List.mem_cons_of_mem ch hc)

/-- C8: outputIsValid returns false exactly when some output sample in
some channel is NaN or infinite, and true exactly when every sample in
every channel is finite — no other condition affects the result; the
stereo variant agrees with the general one on its two channels. -/
theorem outputIsValid_spec (chans : List (List Sample)) (left right : List Sample) :
    (outputIsValid chans = false ↔
      ∃ ch ∈ chans, ∃ s ∈ ch, (s.isNan = true ∨ s.isInf = true))
    ∧ (outputIsValid chans = true ↔ ∀ ch ∈ chans, ∀ s ∈ ch, s.isFinite = true)
    ∧ (stereoOutputIsValid left right = true ↔
        (∀ s ∈ left, s.isFinite = true) ∧ ∀ s ∈ right, s.isFinite = true) := by
  refine ⟨?_, outputIsValid_true_iff chans, ?_⟩
  · rw [Bool.eq_false_iff, ne_eq, outputIsValid_true_iff chans]
    push_neg
    constructor
    · rintro ⟨ch, hch, s, hs, hfin⟩
      exact ⟨ch, hch, s, hs, (Sample.not_finite_iff s).mp hfin⟩
    · rintro ⟨ch, hch, s, hs, hbad⟩
      exact ⟨ch, hch, s, hs, (Sample.not_finite_iff s).mpr hbad⟩
  · unfold stereoOutputIsValid
    rw [outputIsValid_true_iff]
    simp

/-! ## Event bus sinks (src/test-host.cpp)

The CLAP core event type tags relevant to the capture switch. -/

def CLAP_EVENT_NOTE_ON : Nat := 0
def CLAP_EVENT_NOTE_OFF : Nat := 1
def CLAP_EVENT_NOTE_EXPRESSION : Nat := 4
def CLAP_EVENT_PARAM_VALUE : Nat := 5

/-- Payload of a clap_event_note_t. -/
structure ClapNotePayload where
  port : Int
  channel : Int
  key : Int
  noteId : Int
  velocity : ℚ
deriving DecidableEq, Repr

/-- Payload of a clap_event_note_expression_t. -/
structure ClapExprPayload where
  port : Int
  channel : Int
  key : Int
  noteId : Int
  exprId : Int
  value : ℚ
deriving DecidableEq, Repr

/-- Payload of a clap_event_param_value_t. -/
structure ClapParamPayload where
  paramId : Nat
  value : ℚ
  port : Int
  channel : Int
  key : Int
  noteId : Int
deriving DecidableEq, Repr

/-- The body behind a pushed event header, by kind. -/
inductive ClapEventBody where
  | note (p : ClapNotePayload)
  | expr (p : ClapExprPayload)
  | param (p : ClapParamPayload)
  | unknown
deriving DecidableEq, Repr

/-- A pushed CLAP output event: header time and type plus body. -/
structure ClapEvent where
  time : Nat
  type : Nat
  body : ClapEventBody
deriving DecidableEq, Repr

/-- CapturedEvent from include/clap-trap/test-host.h; the C++ value is
zero-initialized before the switch fills the fields of its kind. -/
structure CapturedEvent where
  time : Nat
  type : Nat
  port : Int
  channel : Int
  key : Int
  noteId : Int
  velocity : ℚ
  expressionId : Int
  expressionValue : ℚ
  paramId : Nat
  paramValue : ℚ
deriving DecidableEq, Repr

/-- The zero-initialized CapturedEvent. -/
def emptyCaptured : CapturedEvent := ⟨0, 0, 0, 0, 0, 0, 0, 0, 0, 0, 0⟩

/-- The decode switch of CaptureOutputEvents::tryPush: time and type
are always recorded; the known kinds additionally copy their payload;
the default branch stores just time and type. -/
def decodeEvent (e : ClapEvent) : CapturedEvent :=
  let c := { emptyCaptured with time := e.time, type := e.type }
  if e.type = CLAP_EVENT_NOTE_ON ∨ e.type = CLAP_EVENT_NOTE_OFF then
    match e.body with
    | .note p => { c with port := p.port, channel := p.channel, key := p.key,
                          noteId := p.noteId, velocity := p.velocity }
    | _ => c
  else if e.type = CLAP_EVENT_NOTE_EXPRESSION then
    match e.body with
    | .expr p => { c with port := p.port, channel := p.channel, key := p.key,
                          noteId := p.noteId, expressionId := p.exprId,
                          expressionValue := p.value }
    | _ => c
  else if e.type = CLAP_EVENT_PARAM_VALUE then
    match e.body with
    | .param p => { c with paramId := p.paramId, paramValue := p.value,
                           port := p.port, channel := p.channel, key := p.key,
                           noteId := p.noteId }
    | _ => c
  else c

/-- DiscardOutputEvents::try_push: accept and drop (no state). -/
def discardTryPush (state : Unit) (e : ClapEvent) : Bool × Unit := (true, state)

/-- CaptureOutputEvents::tryPush: decode and append one CapturedEvent,
then accept. -/
def captureTryPush (captured : List CapturedEvent) (e : ClapEvent) :
    Bool × List CapturedEvent :=
  (true, captured ++ [decodeEvent e])

/-- Pushing a sequence of events through the capture sink, collecting
the returned accept flags and the final captured list. -/
def capturePushAll (captured : List CapturedEvent) :
    List ClapEvent → List Bool × List CapturedEvent
  | [] => ([], captured)
  | e :: rest =>
    let r := captureTryPush captured e
    let rr := capturePushAll r.2 rest
    (r.1 :: rr.1, rr.2)

theorem decodeEvent_time_type (e : ClapEvent) :
    (decodeEvent e).time = e.time ∧ (decodeEvent e).type = e.type := by
  unfold decodeEvent
  split_ifs <;> cases e.body <;> simp

theorem capturePushAll_spec (captured : List CapturedEvent) (events : List ClapEvent) :
    capturePushAll captured events
      = (List.replicate events.length true, captured ++ events.map decodeEvent) := by
  induction events generalizing captured with
  | nil => simp [capturePushAll]
  | cons e rest ih =>
    rw [capturePushAll]
    rw [show (captureTryPush captured e).2 = captured ++ [decodeEvent e] from rfl]
    rw [ih (captured ++ [decodeEvent e])]
    simp [captureTryPush, List.replicate_succ]

/-- C9: tryPush is never refused: the discarding sink accepts and drops
every event, and the capturing sink accepts every event of every type,
appending exactly one CapturedEvent per push in push order, with at
least the event's time and type recorded even for unknown kinds. -/
theorem tryPush_never_refused (st : Unit) (e : ClapEvent)
    (captured : List CapturedEvent) (events : List ClapEvent) :
    discardTryPush st e = (true, st)
    ∧ (captureTryPush captured e).1 = true
    ∧ (capturePushAll captured events).1 = List.replicate events.length true
    ∧ (capturePushAll captured events).2 = captured ++ events.map decodeEvent
    ∧ (∀ ev ∈ events, (decodeEvent ev).time = ev.time ∧ (decodeEvent ev).type = ev.type) := by
  refine ⟨rfl, rfl, ?_, ?_, ?_⟩
  · rw [capturePushAll_spec]
  · rw [capturePushAll_spec]
  · intro ev _
    exact decodeEvent_time_type ev

/-- Witness for C9: two concrete pushes (a note-on and an unknown kind)
are both accepted. -/
theorem tryPush_never_refused_witness :
    (capturePushAll [] [⟨3, 0, .note ⟨0, 1, 60, -1, 1/2⟩⟩, ⟨5, 99, .unknown⟩]).1
      = [true, true] := by
  have h := tryPush_never_refused () ⟨0, 0, .unknown⟩ []
    [⟨3, 0, .note ⟨0, 1, 60, -1, 1/2⟩⟩, ⟨5, 99, .unknown⟩]
  simpa using h.2.2.1

/-! ## WAV sample quantization (src/wav-file.cpp)

The byte packing is a bijection on the stored values, so the save/load
pair is modelled at the level of the per-sample value transforms. -/

/-- Truncation toward zero, as a C cast from double to an integer. -/
def ratTrunc (q : ℚ) : Int := if 0 ≤ q then ⌊q⌋ else ⌈q⌉

/-- The per-sample 16-bit store of WavFile::save: clamp to [-1, 1]
(fmax/fmin), scale by 32767, cast to int16. -/
def save16 (x : ℚ) : Int := ratTrunc (max (-1) (min 1 x) * 32767)

/-- The per-sample 16-bit read of WavFile::load: divide by 32768. -/
def load16 (i : Int) : ℚ := (i : ℚ) / 32768

/-- The float32 store of WavFile::save writes the sample bits as they
are; reading them back yields the identical value. -/
def saveF32 (x : ℚ) : ℚ := x

/-- The float32 read of WavFile::load. -/
def loadF32 (x : ℚ) : ℚ := x

theorem ratTrunc_close (q : ℚ) : |(ratTrunc q : ℚ) - q| < 1 := by
  unfold ratTrunc
  split_ifs with h
  · rw [abs_lt]
    constructor
    · have := Int.sub_one_lt_floor q
      push_cast
      linarith
    · have := Int.floor_le q
      push_cast
      linarith
  · rw [abs_lt]
    constructor
    · have := Int.le_ceil q
      push_cast
      linarith
    · have := Int.ceil_lt_add_one q
      push_cast
      linarith

/-- Counterexample to the ±1/32768 bound of C5: at x = 65535/65536 the
16-bit round trip is off by 3/65536, which exceeds 1/32768 = 2/65536
(save scales by 32767 while load divides by 32768). -/
theorem wav16_error_exceeds_one_32768 :
    ¬(|load16 (save16 (65535 / 65536)) - 65535 / 65536| ≤ 1 / 32768) := by
  have hclamp : max (-1 : ℚ) (min 1 (65535 / 65536)) = 65535 / 65536 := by
    rw [min_eq_right (by norm_num), max_eq_right (by norm_num)]
  have hsave : save16 (65535 / 65536) = 32766 := by
    unfold save16 ratTrunc
    rw [hclamp, if_pos (by norm_num), Int.floor_eq_iff]
    constructor
    · push_cast
      norm_num
    · push_cast
      norm_num
  rw [hsave]
  unfold load16
  have hval : ((32766 : Int) : ℚ) / 32768 - 65535 / 65536 = -(3 / 65536) := by
    norm_num
  rw [hval, abs_neg, abs_of_pos (by norm_num)]
  norm_num

/-- C5 (amended): for x in [-1, 1] the 16-bit save/load round trip
recovers x within ±1/16384 (= 2/32768), and the float32 round trip is
exact. -/
theorem wav_round_trip (x : ℚ) (hx1 : -1 ≤ x) (hx2 : x ≤ 1) :
    |load16 (save16 x) - x| ≤ 1 / 16384 ∧ loadF32 (saveF32 x) = x := by
  refine ⟨?_, rfl⟩
  have hclamp : max (-1 : ℚ) (min 1 x) = x := by
    rw [min_eq_right hx2, max_eq_right hx1]
  unfold save16 load16
  rw [hclamp]
  have h1 : |(ratTrunc (x * 32767) : ℚ) - x * 32767| < 1 := ratTrunc_close (x * 32767)
  have hx : |x| ≤ 1 := abs_le.mpr ⟨hx1, hx2⟩
  have key : |(ratTrunc (x * 32767) : ℚ) - 32768 * x| ≤ 2 := by
    have heq : (ratTrunc (x * 32767) : ℚ) - 32768 * x
        = ((ratTrunc (x * 32767) : ℚ) - x * 32767) + (-x) := by ring
    rw [heq]
    calc |((ratTrunc (x * 32767) : ℚ) - x * 32767) + (-x)|
        ≤ |(ratTrunc (x * 32767) : ℚ) - x * 32767| + |(-x)| := abs_add _ _
      _ ≤ 1 + 1 := by
          rw [abs_neg]
          exact add_le_add (le_of_lt h1) hx
      _ = 2 := by norm_num
  have heq2 : (ratTrunc (x * 32767) : ℚ) / 32768 - x
      = ((ratTrunc (x * 32767) : ℚ) - 32768 * x) / 32768 := by ring
  rw [heq2, abs_div, abs_of_pos (by norm_num : (0 : ℚ) < 32768)]
  rw [div_le_iff (by norm_num : (0 : ℚ) < 32768)]
  calc |(ratTrunc (x * 32767) : ℚ) - 32768 * x| ≤ 2 := key
    _ = 1 / 16384 * 32768 := by norm_num

/-- Witness for C5 at x = 1/2. -/
theorem wav_round_trip_witness :
    |load16 (save16 (1 / 2)) - 1 / 2| ≤ 1 / 16384 ∧ loadF32 (saveF32 (1 / 2)) = 1 / 2 :=
  wav_round_trip (1 / 2) (by norm_num) (by norm_num)

/-! ## MidiFile::save event ordering (src/midi-file.cpp)

The writer converts each event's secondTime to a tick, stable-sorts the
(tick, event) pairs by tick with note-on before note-off at equal tick,
and emits delta times between consecutive sorted events. A stable
insertion sort with the complement of the strict comparator models
std::stable_sort. -/

/-- The tick MidiFile::save assigns to an event:
secondTime * ticksPerQuarter * tempo / 60.0, cast to uint32. -/
def eventTick (tpq : Nat) (tempo : ℚ) (e : MidiEvent) : Nat :=
  (ratTrunc (e.secondTime * tpq * tempo / 60)).toNat

/-- The strict comparator of the stable sort in MidiFile::save: by tick
ascending, and at equal tick larger status type first (0x90 note-on
before 0x80 note-off). -/
def saveLT (a b : Nat × MidiEvent) : Prop :=
  a.1 < b.1 ∨ (a.1 = b.1 ∧ b.2.type < a.2.type)

/-- The non-strict order a stable sort with saveLT realizes. -/
def saveLE (a b : Nat × MidiEvent) : Prop := ¬saveLT b a

instance : DecidableRel saveLT := fun a b => by
  unfold saveLT
  infer_instance

instance : DecidableRel saveLE := fun a b => by
  unfold saveLE
  infer_instance

theorem saveLE_iff (a b : Nat × MidiEvent) :
    saveLE a b ↔ (a.1 < b.1 ∨ (a.1 = b.1 ∧ b.2.type ≤ a.2.type)) := by
  unfold saveLE saveLT
  constructor
  · intro h
    push_neg at h
    omega
  · intro h
    push_neg
    omega

instance : IsTotal (Nat × MidiEvent) saveLE :=
  ⟨fun a b => by
    rw [saveLE_iff, saveLE_iff]
    omega⟩

instance : IsTrans (Nat × MidiEvent) saveLE :=
  ⟨fun a b c hab hbc => by
    rw [saveLE_iff] at hab hbc ⊢
    omega⟩

/-- The sorted (tick, event) list built by MidiFile::save. -/
def sortSaveEvents (tpq : Nat) (tempo : ℚ) (events : List MidiEvent) :
    List (Nat × MidiEvent) :=
  (events.map (fun e => (eventTick tpq tempo e, e))).insertionSort saveLE

/-- The delta times emitted between consecutive sorted events. -/
def saveDeltas : Nat → List (Nat × MidiEvent) → List Nat
  | _, [] => []
  | lastTick, (t, _) :: rest => (t - lastTick) :: saveDeltas t rest

/-- Re-accumulating a delta list from a running tick. -/
def accumFrom : Nat → List Nat → List Nat
  | _, [] => []
  | cur, d :: ds => (cur + d) :: accumFrom (cur + d) ds

theorem accumFrom_saveDeltas (l : List (Nat × MidiEvent)) :
    ∀ lastTick, l.Pairwise (fun a b => a.1 ≤ b.1) → (∀ p ∈ l, lastTick ≤ p.1) →
    accumFrom lastTick (saveDeltas lastTick l) = l.map Prod.fst := by
  induction l with
  | nil => intros; rfl
  | cons p rest ih =>
    intro lastTick hp hge
    rcases List.pairwise_cons.mp hp with ⟨hhead, hrest⟩
    obtain ⟨t, e⟩ := p
    rw [saveDeltas, accumFrom]
    have ht : lastTick ≤ t := hge (t, e) (by simp)
    have h1 : lastTick + (t - lastTick) = t := by omega
    rw [h1, ih t hrest (fun q hq => hhead q hq)]
    rfl

/-- C7: MidiFile::save emits events with ticks ascending; at equal
ticks no note-off (0x80) ever precedes a note-on (0x90); and the delta
times written between consecutive events reconstruct the sorted ticks
exactly (no uint32 underflow — every delta is a true non-negative
difference). -/
theorem save_sort_spec (tpq : Nat) (tempo : ℚ) (events : List MidiEvent) :
    (sortSaveEvents tpq tempo events).Pairwise (fun a b => a.1 ≤ b.1)
    ∧ (sortSaveEvents tpq tempo events).Pairwise
        (fun a b => a.1 = b.1 → ¬(a.2.type = 0x80 ∧ b.2.type = 0x90))
    ∧ accumFrom 0 (saveDeltas 0 (sortSaveEvents tpq tempo events))
        = (sortSaveEvents tpq tempo events).map Prod.fst := by
  have hsorted : (sortSaveEvents tpq tempo events).Pairwise saveLE :=
    List.sorted_insertionSort saveLE _
  have hticks : (sortSaveEvents tpq tempo events).Pairwise (fun a b => a.1 ≤ b.1) := by
    refine hsorted.imp ?_
    intro a b hab
    rw [saveLE_iff] at hab
    omega
  refine ⟨hticks, ?_, ?_⟩
  · refine hsorted.imp ?_
    intro a b hab
    rw [saveLE_iff] at hab
    omega
  · exact accumFrom_saveDeltas _ 0 hticks (fun p _ => Nat.zero_le _)

/-! ## MIDI replay loop (examples/cli.cpp, cmdNotes)

Per block, the loop advances an index through the (time-sorted) note
events, taking every event whose sample position is below the buffer
end: a takeWhile on the pending suffix. Each taken event is injected
with in-block offset eventSample - currentSample, clamped to zero. -/

/-- The sample position of an event: secondTime * sampleRate, cast to
uint64. -/
def eventSample (rate : Nat) (e : MidiEvent) : Nat :=
  (ratTrunc (e.secondTime * rate)).toNat

/-- The events the inner while loop consumes for one block. -/
def replayTake (rate bufEnd : Nat) (pending : List MidiEvent) : List MidiEvent :=
  pending.takeWhile (fun e => eventSample rate e < bufEnd)

/-- The pending suffix left for later blocks. -/
def replayRest (rate bufEnd : Nat) (pending : List MidiEvent) : List MidiEvent :=
  pending.dropWhile (fun e => eventSample rate e < bufEnd)

/-- The in-block offsets the loop injects for one block starting at
currentSample cur: offset = eventSample - cur when positive, else 0. -/
def blockOffsets (rate cur bufSize : Nat) (pending : List MidiEvent) : List Nat :=
  (replayTake rate (cur + bufSize) pending).map
    (fun e => if cur < eventSample rate e then eventSample rate e - cur else 0)

/-- The replay loop over nb blocks: per block, inject the due offsets
and advance the cursor by the buffer size. -/
def replayRun (rate bufSize : Nat) : Nat → Nat → List MidiEvent → List (List Nat)
  | 0, _, _ => []
  | nb + 1, cur, pending =>
    blockOffsets rate cur bufSize pending
      :: replayRun rate bufSize nb (cur + bufSize) (replayRest rate (cur + bufSize) pending)

theorem ratTrunc_mono {q1 q2 : ℚ} (h : q1 ≤ q2) : ratTrunc q1 ≤ ratTrunc q2 := by
  unfold ratTrunc
  split_ifs with h1 h2 h2
  · exact Int.floor_le_floor h
  · exact absurd (le_trans h1 h) h2
  · calc ⌈q1⌉ ≤ ⌈(0 : ℚ)⌉ := Int.ceil_le_ceil (le_of_lt (lt_of_not_le h1))
      _ = 0 := by simp
      _ ≤ ⌊q2⌋ := by
          rw [← Int.floor_intCast (α := ℚ) 0]
          exact Int.floor_le_floor (by exact_mod_cast h2)
  · exact Int.ceil_le_ceil h

theorem eventSample_mono (rate : Nat) {a b : MidiEvent} (h : a.secondTime ≤ b.secondTime) :
    eventSample rate a ≤ eventSample rate b := by
  unfold eventSample
  exact Int.toNat_le_toNat (ratTrunc_mono (by
    exact mul_le_mul_of_nonneg_right h (by positivity)))

/-- On a sample-sorted pending list, the takeWhile of one block selects
exactly the events below the buffer end. -/
theorem replayTake_eq_filter (rate bufEnd : Nat) (pending : List MidiEvent)
    (hs : pending.Pairwise (fun a b => eventSample rate a ≤ eventSample rate b)) :
    replayTake rate bufEnd pending
      = pending.filter (fun e => decide (eventSample rate e < bufEnd)) := by
  unfold replayTake
  induction pending with
  | nil => rfl
  | cons e rest ih =>
    rcases List.pairwise_cons.mp hs with ⟨hhead, hrest⟩
    by_cases h : eventSample rate e < bufEnd
    · rw [List.takeWhile_cons_of_pos (by simpa using h),
        List.filter_cons_of_pos (by simpa using h), ih hrest]
    · rw [List.takeWhile_cons_of_neg (by simpa using h),
        List.filter_cons_of_neg (by simpa using h)]
      rw [List.filter_eq_nil_iff.mpr ?_]
      intro x hx
      have := hhead x hx
      simpa using by omega
  
/-- On a sample-sorted pending list, the pending suffix after one block
holds exactly the events at or past the buffer end. -/
theorem replayRest_eq_filter (rate bufEnd : Nat) (pending : List MidiEvent)
    (hs : pending.Pairwise (fun a b => eventSample rate a ≤ eventSample rate b)) :
    replayRest rate bufEnd pending
      = pending.filter (fun e => decide (bufEnd ≤ eventSample rate e)) := by
  unfold replayRest
  induction pending with
  | nil => rfl
  | cons e rest ih =>
    rcases List.pairwise_cons.mp hs with ⟨hhead, hrest⟩
    by_cases h : eventSample rate e < bufEnd
    · rw [List.dropWhile_cons_of_pos (by simpa using h),
        List.filter_cons_of_neg (by simp; omega), ih hrest]
    · rw [List.dropWhile_cons_of_neg (by simpa using h),
        List.filter_cons_of_pos (by simp; omega)]
      congr 1
      symm
      apply List.filter_eq_self.mpr
      intro x hx
      have h1 := hhead x hx
      simp only [decide_eq_true_eq]
      omega

theorem replayRun_spec_aux (rate bufSize : Nat) :
    ∀ nb s (pending : List MidiEvent),
    pending.Pairwise (fun a b => eventSample rate a ≤ eventSample rate b) →
    (∀ e ∈ pending, s * bufSize ≤ eventSample rate e) →
    replayRun rate bufSize nb (s * bufSize) pending
      = (List.range' s nb).map (fun k =>
          (pending.filter (fun e =>
              decide (k * bufSize ≤ eventSample rate e ∧
                eventSample rate e < (k + 1) * bufSize))).map
            (fun e => eventSample rate e - k * bufSize)) := by
  intro nb
  induction nb with
  | zero => intros; rfl
  | succ nb ih =>
    intro s pending hs hge
    rw [replayRun, List.range'_succ, List.map_cons]
    congr 1
    · unfold blockOffsets
      rw [replayTake_eq_filter rate (s * bufSize + bufSize) pending hs]
      have hpq : ∀ e ∈ pending,
          (fun e => decide (eventSample rate e < s * bufSize + bufSize)) e
          = (fun e => decide (s * bufSize ≤ eventSample rate e ∧
              eventSample rate e < (s + 1) * bufSize)) e := by
        intro e he
        have h1 := hge e he
        have h2 : (s + 1) * bufSize = s * bufSize + bufSize := by ring
        simp only
        rw [decide_eq_decide]
        generalize eventSample rate e = x at h1 ⊢
        generalize s * bufSize = m at h1 h2 ⊢
        omega
      rw [List.filter_congr hpq]
      apply List.map_congr_left
      intro e he
      have h1 := (List.mem_filter.mp he).2
      simp only [decide_eq_true_eq] at h1
      generalize eventSample rate e = x at h1 ⊢
      generalize s * bufSize = m at h1 ⊢
      split_ifs <;> omega
    · have hrw : s * bufSize + bufSize = (s + 1) * bufSize := by ring
      rw [hrw]
      have hsub : List.Sublist (replayRest rate ((s + 1) * bufSize) pending) pending := by
        unfold replayRest
        exact List.dropWhile_sublist _
      have hs2 : (replayRest rate ((s + 1) * bufSize) pending).Pairwise
          (fun a b => eventSample rate a ≤ eventSample rate b) :=
        List.Pairwise.sublist hsub hs
      have hge2 : ∀ e ∈ replayRest rate ((s + 1) * bufSize) pending,
          (s + 1) * bufSize ≤ eventSample rate e := by
        intro e he
        rw [replayRest_eq_filter rate _ pending hs] at he
        have := (List.mem_filter.mp he).2
        simpa using this
      rw [ih (s + 1) _ hs2 hge2]
      apply List.map_congr_left
      intro k hk
      have hk1 : s + 1 ≤ k := by
        rcases List.mem_range'.mp hk with ⟨i, _, rfl⟩
        omega
      congr 1
      rw [replayRest_eq_filter rate _ pending hs, List.filter_filter]
      apply List.filter_congr
      intro e he
      have hkB : (s + 1) * bufSize ≤ k * bufSize :=
        Nat.mul_le_mul_right bufSize hk1
      rcases Nat.lt_or_ge (eventSample rate e) ((s + 1) * bufSize) with hlt | hgELT
      · have hd1 : decide ((s + 1) * bufSize ≤ eventSample rate e) = false := by
          simpa using by omega
        have hd2 : decide (k * bufSize ≤ eventSample rate e ∧
            eventSample rate e < (k + 1) * bufSize) = false := by
          simp only [decide_eq_false_iff_not]
          intro hcon
          have := hcon.1
          omega
        rw [hd1, hd2]
        simp
      · have hd1 : decide ((s + 1) * bufSize ≤ eventSample rate e) = true := by
          simpa using hgELT
        rw [hd1]
        simp

/-- C6: in every iteration of the replay loop, exactly the pending note
events whose sample position lands in [currentSample, currentSample +
bufferSize) are injected (block k gets exactly the events with sample
in [k*bufSize, (k+1)*bufSize)), each with offset eventSample -
currentSample clamped at zero, and every injected offset is strictly
below the buffer size. -/
theorem replay_loop_spec (rate bufSize nb : Nat) (events : List MidiEvent)
    (hsort : events.Pairwise (fun a b => a.secondTime ≤ b.secondTime)) :
    replayRun rate bufSize nb 0 events
      = (List.range' 0 nb).map (fun k =>
          (events.filter (fun e =>
              decide (k * bufSize ≤ eventSample rate e ∧
                eventSample rate e < (k + 1) * bufSize))).map
            (fun e => eventSample rate e - k * bufSize))
    ∧ (∀ block ∈ replayRun rate bufSize nb 0 events, ∀ off ∈ block, off < bufSize) := by
  have hs : events.Pairwise (fun a b => eventSample rate a ≤ eventSample rate b) :=
    hsort.imp (fun h => eventSample_mono rate h)
  have h1 := replayRun_spec_aux rate bufSize nb 0 events hs (by simp)
  rw [Nat.zero_mul] at h1
  refine ⟨h1, ?_⟩
  rw [h1]
  intro block hb off ho
  rcases List.mem_map.mp hb with ⟨k, _, rfl⟩
  rcases List.mem_map.mp ho with ⟨e, he, rfl⟩
  have hmem := (List.mem_filter.mp he).2
  simp only [decide_eq_true_eq] at hmem
  have h2 : (k + 1) * bufSize = k * bufSize + bufSize := by ring
  generalize eventSample rate e = x at hmem ⊢
  generalize k * bufSize = m at hmem h2 ⊢
  omega

/-- Witness for C6: one event at 1/2 s with sample rate 10 and buffer
size 4 lands in block 1 at offset 1. -/
theorem replay_loop_spec_witness :
    replayRun 10 4 2 0 [⟨0, 1/2, 0x90, 0, 60, 100⟩]
      = (List.range' 0 2).map (fun k =>
          (([⟨0, 1/2, 0x90, 0, 60, 100⟩] : List MidiEvent).filter (fun e =>
              decide (k * 4 ≤ eventSample 10 e ∧ eventSample 10 e < (k + 1) * 4))).map
            (fun e => eventSample 10 e - k * 4)) :=
  (replay_loop_spec 10 4 2 [⟨0, 1/2, 0x90, 0, 60, 100⟩] (by simp)).1

/-! ## Lifecycle driver (examples/validate.cpp per-plugin loop,
examples/cli.cpp cmdState)

The observable lifecycle calls issued on one plugin instance, with the
result of the calls the driver branches on. -/

/-- One lifecycle call. -/
inductive LcAction where
  | create (ok : Bool)
  | init (ok : Bool)
  | activate (ok : Bool)
  | start (ok : Bool)
  | process (ok : Bool)
  | stop
  | deactivate
  | destroy
deriving DecidableEq, Repr

/-- The lifecycle phases of the contract, plus stuck for an illegal
call. -/
inductive LcPhase where
  | pre
  | created
  | inited
  | activated
  | processing
  | destroyed
  | stuck
deriving DecidableEq, Repr

/-- The legality automaton of the lifecycle contract: forward
transitions (init, activate, start, process) are legal only in their
source phase and only while no transition has failed; the cleanup
transitions stop, deactivate and destroy stay legal after a failure;
destroy is legal from every reachable instance phase and nothing is
legal after it; any other call gets stuck. -/
def lcStep : LcPhase × Bool → LcAction → LcPhase × Bool
  | (.pre, f), .create ok => if ok then (.created, f) else (.pre, true)
  | (.created, false), .init ok => if ok then (.inited, false) else (.created, true)
  | (.inited, false), .activate ok => if ok then (.activated, false) else (.inited, true)
  | (.activated, false), .start ok => if ok then (.processing, false) else (.activated, true)
  | (.processing, false), .process ok => (.processing, !ok)
  | (.processing, f), .stop => (.activated, f)
  | (.activated, f), .deactivate => (.inited, f)
  | (.created, f), .destroy => (.destroyed, f)
  | (.inited, f), .destroy => (.destroyed, f)
  | (.activated, f), .destroy => (.destroyed, f)
  | (.processing, f), .destroy => (.destroyed, f)
  | _, _ => (.stuck, true)

/-- Run the automaton over a trace from the initial state. -/
def lcRun (tr : List LcAction) : LcPhase × Bool :=
  tr.foldl lcStep (.pre, false)

/-- The process loop of validate.cpp: up to n blocks, stopping after
the first block whose process call errors or whose output is invalid
(blkOk i = false). -/
def processCalls (blkOk : Nat → Bool) : Nat → Nat → List LcAction
  | 0, _ => []
  | n + 1, i =>
    .process (blkOk i) :: (if blkOk i then processCalls blkOk n (i + 1) else [])

/-- The call results a plugin binary produces for the validate run. -/
structure PluginBehavior where
  createOk : Bool
  initOk : Bool
  activateOk : Bool
  startOk : Bool
  blkOk : Nat → Bool

/-- The per-plugin lifecycle calls of validate.cpp's main loop: each
failure path skips the remaining forward calls and still runs the
cleanup calls of its branch (init failure destroys; activate failure
destroys; start failure deactivates then destroys; a process failure
breaks the block loop, then stop, deactivate, destroy run
unconditionally). -/
def validateTrace (b : PluginBehavior) : List LcAction :=
  .create b.createOk ::
    (if b.createOk = false then []
     else .init b.initOk ::
       (if b.initOk = false then [.destroy]
        else .activate b.activateOk ::
          (if b.activateOk = false then [.destroy]
           else .start b.startOk ::
             (if b.startOk = false then [.deactivate, .destroy]
              else processCalls b.blkOk 10 0 ++ [.stop, .deactivate, .destroy]))))

/-- The branch outcomes of the state command. -/
structure StateCmdBehavior where
  createOk : Bool
  initOk : Bool
  hasState : Bool
  saveOk : Bool
  loadOk : Bool

/-- The lifecycle calls of cmdState in examples/cli.cpp: a null plugin
is never touched again (no init, no destroy); every later exit path —
init failure, missing state extension, save or load failure, and the
successful round trip — calls destroy exactly once and never activates.
The save/load/roundtrip work issues no lifecycle calls, so the traces
of those branches coincide. -/
def stateTrace (b : StateCmdBehavior) : List LcAction :=
  if b.createOk = false then [.create false]
  else if b.initOk = false then [.create true, .init false, .destroy]
  else if b.hasState = false then [.create true, .init true, .destroy]
  else if b.saveOk = false then [.create true, .init true, .destroy]
  else if b.loadOk = false then [.create true, .init true, .destroy]
  else [.create true, .init true, .destroy]

theorem processCalls_destroy_count (blkOk : Nat → Bool) :
    ∀ n i, (processCalls blkOk n i).count LcAction.destroy = 0 := by
  intro n
  induction n with
  | zero => intro i; rfl
  | succ n ih =>
    intro i
    rw [processCalls]
    cases h : blkOk i <;> simp [List.count_cons, ih]

theorem processCalls_run (blkOk : Nat → Bool) :
    ∀ n i, ∃ f, (processCalls blkOk n i).foldl lcStep (.processing, false)
      = (.processing, f) := by
  intro n
  induction n with
  | zero => intro i; exact ⟨false, rfl⟩
  | succ n ih =>
    intro i
    rw [processCalls]
    cases h : blkOk i
    · refine ⟨true, ?_⟩
      simp [lcStep, h]
    · rcases ih (i + 1) with ⟨f, hf⟩
      refine ⟨f, ?_⟩
      simpa [lcStep, h] using hf

/-- C4: in both drivers, for every plugin behavior, the issued calls
are accepted by the legality automaton (never out of order, forward
calls barred after a failure, cleanup still performed), and destroy is
called exactly once when creation succeeded and never otherwise. -/
theorem lifecycle_driver_spec (b : PluginBehavior) (sb : StateCmdBehavior) :
    (lcRun (validateTrace b)).1 ≠ LcPhase.stuck
    ∧ (validateTrace b).count LcAction.destroy = (if b.createOk then 1 else 0)
    ∧ (lcRun (stateTrace sb)).1 ≠ LcPhase.stuck
    ∧ (stateTrace sb).count LcAction.destroy = (if sb.createOk then 1 else 0) := by
  have hstate : (lcRun (stateTrace sb)).1 ≠ LcPhase.stuck
      ∧ (stateTrace sb).count LcAction.destroy = (if sb.createOk then 1 else 0) := by
    unfold stateTrace
    rcases sb with ⟨c, i, hst, sv, ld⟩
    cases c <;> cases i <;> cases hst <;> cases sv <;> cases ld <;>
      exact ⟨by decide, by decide⟩
  refine ⟨?_, ?_, hstate.1, hstate.2⟩
  · unfold validateTrace lcRun
    cases hc : b.createOk
    · simp [lcStep]
    · cases hi : b.initOk
      · simp [lcStep]
      · cases ha : b.activateOk
        · simp [lcStep]
        · cases hs : b.startOk
          · simp [lcStep]
          · simp only [Bool.true_eq_false, if_false, List.foldl_cons]
            rw [show lcStep (.pre, false) (.create true) = (.created, false) from rfl,
              show lcStep (.created, false) (.init true) = (.inited, false) from rfl,
              show lcStep (.inited, false) (.activate true) = (.activated, false) from rfl,
              show lcStep (.activated, false) (.start true) = (.processing, false) from rfl,
              List.foldl_append]
            rcases processCalls_run b.blkOk 10 0 with ⟨f, hf⟩
            rw [hf]
            cases f <;> decide
  · unfold validateTrace
    cases hc : b.createOk
    · simp [List.count_cons]
    · cases hi : b.initOk
      · simp [List.count_cons]
      · cases ha : b.activateOk
        · simp [List.count_cons]
        · cases hs : b.startOk
          · simp [List.count_cons]
          · simp only [Bool.true_eq_false, if_false, List.count_cons,
              List.count_append, processCalls_destroy_count b.blkOk 10 0]
            simp

/-! ## MIDI file writer and parser bytes (src/midi-file.cpp)

Big-endian fixed-width fields. -/

/-- writeBE32 from src/midi-file.cpp. -/
def writeBE32 (v : Nat) : List Nat :=
  [(v >>> 24) &&& 0xFF, (v >>> 16) &&& 0xFF, (v >>> 8) &&& 0xFF, v &&& 0xFF]

/-- writeBE16 from src/midi-file.cpp. -/
def writeBE16 (v : Nat) : List Nat := [(v >>> 8) &&& 0xFF, v &&& 0xFF]

/-- readBE32 from src/midi-file.cpp, applied to four bytes. -/
def readBE32 (b0 b1 b2 b3 : Nat) : Nat :=
  (b0 <<< 24) ||| (b1 <<< 16) ||| (b2 <<< 8) ||| b3

/-- readBE16 from src/midi-file.cpp, applied to two bytes. -/
def readBE16 (b0 b1 : Nat) : Nat := (b0 <<< 8) ||| b1

theorem shiftLeft_lor_eq_add (k a d : Nat) (hd : d < 2 ^ k) :
    a <<< k ||| d = a * 2 ^ k + d := by
  have hdi : ∀ i, k ≤ i → d.testBit i = false := by
    intro i hi
    exact Nat.testBit_eq_false_of_lt (lt_of_lt_of_le hd (Nat.pow_le_pow_right (by norm_num) hi))
  have hmod : (a <<< k ||| d) % 2 ^ k = d := by
    apply Nat.eq_of_testBit_eq
    intro i
    rw [Nat.testBit_mod_two_pow, Nat.testBit_lor, Nat.testBit_shiftLeft]
    by_cases h : i < k
    · simp [h, Nat.not_le.mpr h]
    · simp [h, hdi i (Nat.not_lt.mp h)]
  have hdiv : (a <<< k ||| d) >>> k = a := by
    apply Nat.eq_of_testBit_eq
    intro i
    rw [Nat.testBit_shiftRight, Nat.testBit_lor, Nat.testBit_shiftLeft]
    simp [hdi (k + i) (by omega), Nat.le_add_right]
  have hsplit := Nat.div_add_mod (a <<< k ||| d) (2 ^ k)
  rw [hmod] at hsplit
  rw [Nat.shiftRight_eq_div_pow] at hdiv
  have hpos : 0 < 2 ^ k := Nat.pos_pow_of_pos k (by norm_num)
  calc a <<< k ||| d = 2 ^ k * ((a <<< k ||| d) / 2 ^ k) + d := by omega
    _ = a * 2 ^ k + d := by rw [hdiv]; ring

theorem and_255_eq_mod (x : Nat) : x &&& 0xFF = x % 256 := by
  have h : (0xFF : Nat) = 2 ^ 8 - 1 := by norm_num
  rw [h, Nat.and_pow_two_sub_one_eq_mod]

theorem readBE16_bytes (b0 b1 : Nat) (h1 : b1 < 256) :
    readBE16 b0 b1 = b0 * 256 + b1 := by
  unfold readBE16
  rw [shiftLeft_lor_eq_add 8 b0 b1 (by norm_num; omega)]
  norm_num

theorem readBE16_writeBE16 (v : Nat) (hv : v < 65536) :
    readBE16 ((v >>> 8) &&& 0xFF) (v &&& 0xFF) = v := by
  rw [readBE16_bytes _ _ (by rw [and_255_eq_mod]; exact Nat.mod_lt _ (by norm_num))]
  rw [and_255_eq_mod, and_255_eq_mod, Nat.shiftRight_eq_div_pow]
  norm_num
  omega

theorem readBE32_bytes (b0 b1 b2 b3 : Nat) (h1 : b1 < 256) (h2 : b2 < 256)
    (h3 : b3 < 256) :
    readBE32 b0 b1 b2 b3 = b0 * 16777216 + b1 * 65536 + b2 * 256 + b3 := by
  unfold readBE32
  have p8 : (2 : Nat) ^ 8 = 256 := by norm_num
  have p16 : (2 : Nat) ^ 16 = 65536 := by norm_num
  have p24 : (2 : Nat) ^ 24 = 16777216 := by norm_num
  have e1 : b0 <<< 24 ||| b1 <<< 16 = b0 * 16777216 + b1 * 65536 := by
    have hlt : b1 <<< 16 < 2 ^ 24 := by
      rw [Nat.shiftLeft_eq, p16, p24]
      omega
    rw [shiftLeft_lor_eq_add 24 b0 _ hlt, Nat.shiftLeft_eq, p16, p24]
  rw [e1]
  have e2 : b0 * 16777216 + b1 * 65536 ||| b2 <<< 8
      = b0 * 16777216 + b1 * 65536 + b2 * 256 := by
    have hs : b0 * 16777216 + b1 * 65536 = (b0 * 256 + b1) <<< 16 := by
      rw [Nat.shiftLeft_eq, p16]
      ring
    have hlt : b2 <<< 8 < 2 ^ 16 := by
      rw [Nat.shiftLeft_eq, p8, p16]
      omega
    rw [hs, shiftLeft_lor_eq_add 16 _ _ hlt]
    simp only [Nat.shiftLeft_eq, p8, p16]
  rw [e2]
  have e3 : b0 * 16777216 + b1 * 65536 + b2 * 256 ||| b3
      = b0 * 16777216 + b1 * 65536 + b2 * 256 + b3 := by
    have hs : b0 * 16777216 + b1 * 65536 + b2 * 256
        = ((b0 * 256 + b1) * 256 + b2) <<< 8 := by
      rw [Nat.shiftLeft_eq, p8]
      ring
    have hlt : b3 < 2 ^ 8 := by
      rw [p8]
      omega
    rw [hs, shiftLeft_lor_eq_add 8 _ _ hlt]
    simp only [Nat.shiftLeft_eq, p8]
  rw [e3]

theorem readBE32_writeBE32 (v : Nat) (hv : v < 4294967296) :
    readBE32 ((v >>> 24) &&& 0xFF) ((v >>> 16) &&& 0xFF) ((v >>> 8) &&& 0xFF)
      (v &&& 0xFF) = v := by
  rw [readBE32_bytes _ _ _ _
    (by rw [and_255_eq_mod]; exact Nat.mod_lt _ (by norm_num))
    (by rw [and_255_eq_mod]; exact Nat.mod_lt _ (by norm_num))
    (by rw [and_255_eq_mod]; exact Nat.mod_lt _ (by norm_num))]
  rw [and_255_eq_mod, and_255_eq_mod, and_255_eq_mod, and_255_eq_mod,
    Nat.shiftRight_eq_div_pow, Nat.shiftRight_eq_div_pow, Nat.shiftRight_eq_div_pow]
  norm_num
  omega

/-- The state of a track parse loop: absolute tick, running status,
collected channel events and tempo changes. -/
structure TrackState where
  absTick : Nat
  running : Nat
  events : List MidiEvent
  tempos : List TempoChange
deriving DecidableEq, Repr

/-- One channel event as parseTrack builds it (secondTime is filled in
later by computeTimes). -/
def mkParsedEvent (absTick status d1 d2 : Nat) : MidiEvent :=
  ⟨absTick, 0, status &&& 0xF0, status &&& 0x0F, d1, d2⟩

/-- The while loop of MidiFile::parseTrack over the track bytes. Each
iteration reads a delta VLQ, resolves running status, then dispatches
on meta (0xFF), sysex (0xF0/0xF7), channel messages (status type
0x80..0xE0, one data byte for 0xC0/0xD0, two otherwise), or skips.
The fuel argument only bounds the iteration count; the loop consumes at
least one byte per iteration, so fuel = byte count suffices. -/
def ptLoop : Nat → List Nat → TrackState → TrackState
  | 0, _, st => st
  | _ + 1, [], st => st
  | fuel + 1, bytes, st =>
    let dr := readVLQ bytes
    let absTick2 := (st.absTick + dr.1) % 4294967296
    match dr.2 with
    | [] => { st with absTick := absTick2 }
    | b :: tl =>
      let status := if b < 0x80 then st.running else b
      let r2 := if b < 0x80 then b :: tl else tl
      let running2 := if b < 0x80 then st.running
                      else if b < 0xF0 then b else st.running
      if status = 0xFF then
        match r2 with
        | [] => { st with absTick := absTick2, running := running2 }
        | mt :: tl2 =>
          let lr := readVLQ tl2
          let tempos2 :=
            match lr.2 with
            | p0 :: p1 :: p2 :: _ =>
              if mt = 0x51 ∧ lr.1 = 3 then
                st.tempos ++ [⟨absTick2, (p0 <<< 16) ||| (p1 <<< 8) ||| p2⟩]
              else st.tempos
            | _ => st.tempos
          ptLoop fuel (lr.2.drop lr.1)
            { absTick := absTick2, running := running2,
              events := st.events, tempos := tempos2 }
      else if status = 0xF0 ∨ status = 0xF7 then
        let lr := readVLQ r2
        ptLoop fuel (lr.2.drop lr.1)
          { st with absTick := absTick2, running := running2 }
      else if 0x80 ≤ status &&& 0xF0 ∧ status &&& 0xF0 ≤ 0xE0 then
        match r2 with
        | [] => { st with absTick := absTick2, running := running2 }
        | d1 :: tl3 =>
          if status &&& 0xF0 ≠ 0xC0 ∧ status &&& 0xF0 ≠ 0xD0 then
            match tl3 with
            | [] => { st with absTick := absTick2, running := running2 }
            | d2 :: tl4 =>
              ptLoop fuel tl4
                { absTick := absTick2, running := running2,
                  events := st.events ++ [mkParsedEvent absTick2 status d1 d2],
                  tempos := st.tempos }
          else
            ptLoop fuel tl3
              { absTick := absTick2, running := running2,
                events := st.events ++ [mkParsedEvent absTick2 status d1 0],
                tempos := st.tempos }
      else
        ptLoop fuel r2 { st with absTick := absTick2, running := running2 }

/-- The parsed MIDI header fields. -/
structure ParsedHeader where
  format : Nat
  numTracks : Nat
  tpq : Nat
deriving DecidableEq, Repr

/-- MidiFile::parseHeader: 14-byte header, MThd magic, length at least
6, SMPTE division rejected, extra header bytes skipped. -/
def parseHeader (bytes : List Nat) : Option (ParsedHeader × List Nat) :=
  match bytes with
  | m0 :: m1 :: m2 :: m3 :: l0 :: l1 :: l2 :: l3 :: f0 :: f1 :: n0 :: n1 :: d0 :: d1 :: rest =>
    if m0 = 77 ∧ m1 = 84 ∧ m2 = 104 ∧ m3 = 100 then
      if readBE32 l0 l1 l2 l3 < 6 then none
      else
        let division := readBE16 d0 d1
        if division &&& 0x8000 ≠ 0 then none
        else some (⟨readBE16 f0 f1, readBE16 n0 n1, division⟩,
          rest.drop (readBE32 l0 l1 l2 l3 - 6))
    else none
  | _ => none

/-- MidiFile::parseTrack: MTrk magic, track length, length check, then
the byte loop over exactly the track bytes; parsing always resumes at
the track end. -/
def parseTrack (bytes : List Nat) (evs : List MidiEvent) (tms : List TempoChange) :
    Option (TrackState × List Nat) :=
  match bytes with
  | m0 :: m1 :: m2 :: m3 :: l0 :: l1 :: l2 :: l3 :: rest =>
    if m0 = 77 ∧ m1 = 84 ∧ m2 = 114 ∧ m3 = 107 then
      if rest.length < readBE32 l0 l1 l2 l3 then none
      else
        let td := rest.take (readBE32 l0 l1 l2 l3)
        some (ptLoop (td.length + 1) td ⟨0, 0, evs, tms⟩,
          rest.drop (readBE32 l0 l1 l2 l3))
    else none
  | _ => none

/-- The track loop of MidiFile::parse. -/
def parseTracks : Nat → List Nat → List MidiEvent → List TempoChange →
    Option (List MidiEvent × List TempoChange)
  | 0, _, evs, tms => some (evs, tms)
  | n + 1, bytes, evs, tms =>
    match parseTrack bytes evs tms with
    | none => none
    | some (st, rest) => parseTracks n rest st.events st.tempos

/-- MidiFile::parse: header, tracks, stable sort of all events by tick,
then computeTimes. Returns ticksPerQuarter and the final event list. -/
def parseMidi (data : List Nat) : Option (Nat × List MidiEvent) :=
  match parseHeader data with
  | none => none
  | some (h, rest) =>
    match parseTracks h.numTracks rest [] [] with
    | none => none
    | some (evs, tms) =>
      some (h.tpq, computeTimesEvents h.tpq tms
        (evs.insertionSort (fun a b => a.tickTime ≤ b.tickTime)))

/-- The event byte emission loop of MidiFile::save: delta VLQ, status
byte (type with channel nibble), first data byte, and a second data
byte except for program change and channel pressure. -/
def emitEvents : Nat → List (Nat × MidiEvent) → List Nat
  | _, [] => []
  | lastTick, (t, e) :: rest =>
    writeVLQ (t - lastTick)
      ++ [e.type ||| (e.channel &&& 0x0F), e.data1]
      ++ (if e.type ≠ 0xC0 ∧ e.type ≠ 0xD0 then [e.data2] else [])
      ++ emitEvents t rest

/-- The uint32 microsecondsPerQuarter MidiFile::save derives from the
BPM tempo: 60,000,000 / tempo, cast to uint32. -/
def savedUspq (tempo : ℚ) : Nat := (ratTrunc (60000000 / tempo)).toNat % 4294967296

/-- The track chunk bytes built by MidiFile::save. -/
def saveTrackData (events : List MidiEvent) (tempo : ℚ) (tpq : Nat) : List Nat :=
  writeVLQ 0
    ++ [0xFF, 0x51, 0x03,
        (savedUspq tempo >>> 16) &&& 0xFF,
        (savedUspq tempo >>> 8) &&& 0xFF,
        savedUspq tempo &&& 0xFF]
    ++ emitEvents 0 (sortSaveEvents tpq tempo events)
    ++ writeVLQ 0 ++ [0xFF, 0x2F, 0x00]

/-- The bytes MidiFile::save writes: MThd header (format 0, one track,
ticksPerQuarter), then the MTrk chunk. -/
def saveBytes (events : List MidiEvent) (tempo : ℚ) (tpq : Nat) : List Nat :=
  [77, 84, 104, 100] ++ writeBE32 6 ++ writeBE16 0 ++ writeBE16 1 ++ writeBE16 tpq
    ++ [77, 84, 114, 107]
    ++ writeBE32 ((saveTrackData events tempo tpq).length % 4294967296)
    ++ saveTrackData events tempo tpq

/-- Wellformedness of a note event as MidiFile::save receives them:
note-on or note-off status type, 4-bit channel, 7-bit data bytes. -/
def goodEvent (e : MidiEvent) : Prop :=
  (e.type = 0x90 ∨ e.type = 0x80) ∧ e.channel < 16 ∧ e.data1 < 128 ∧ e.data2 < 128

theorem and_15_eq_mod (x : Nat) : x &&& 0x0F = x % 16 := by
  have h : (0x0F : Nat) = 2 ^ 4 - 1 := by norm_num
  rw [h, Nat.and_pow_two_sub_one_eq_mod]

theorem statusByte_eq (e : MidiEvent) (hg : goodEvent e) :
    e.type ||| (e.channel &&& 0x0F) = e.type + e.channel := by
  obtain ⟨ht, hc, _, _⟩ := hg
  rcases ht with ht | ht <;> rw [ht] <;>
    (generalize e.channel = c at hc; interval_cases c <;> decide)

theorem statusByte_nibbles (t c : Nat) (ht : t = 0x90 ∨ t = 0x80) (hc : c < 16) :
    (t + c) &&& 0xF0 = t ∧ (t + c) &&& 0x0F = c ∧ 0x80 ≤ t + c ∧ t + c < 0xF0 := by
  rcases ht with ht | ht <;> subst ht <;> interval_cases c <;>
    exact ⟨by decide, by decide, by decide, by decide⟩

/-- The event a well-formed saved pair parses back to. -/
def mkSaved (p : Nat × MidiEvent) : MidiEvent :=
  ⟨p.1, 0, p.2.type, p.2.channel, p.2.data1, p.2.data2⟩

theorem ptLoop_eot (st : TrackState) (fuel : Nat) (hf : 2 ≤ fuel)
    (ht : st.absTick < 4294967296) :
    ptLoop fuel [0, 0xFF, 0x2F, 0x00] st = st := by
  cases fuel with
  | zero => omega
  | succ f =>
    cases f with
    | zero => omega
    | succ f2 =>
      simp only [ptLoop, readVLQ, readVLQAux]
      norm_num
      have hv : readVLQAux [0] 0 = (0, []) := rfl
      rw [hv]
      simp only [ptLoop]
      rw [Nat.mod_eq_of_lt ht]

theorem ptLoop_event_step (t : Nat) (e : MidiEvent) (tail : List Nat) (st : TrackState)
    (fuel : Nat) (hg : goodEvent e) (hlast : st.absTick ≤ t) (ht : t < 4294967296) :
    ptLoop (fuel + 1)
        (writeVLQ (t - st.absTick)
          ++ [e.type ||| (e.channel &&& 0x0F), e.data1, e.data2] ++ tail) st
      = ptLoop fuel tail
          ⟨t, e.type + e.channel, st.events ++ [mkSaved (t, e)], st.tempos⟩ := by
  obtain ⟨htype, hchan, hd1, hd2⟩ := hg
  have hst := statusByte_eq e ⟨htype, hchan, hd1, hd2⟩
  obtain ⟨hn1, hn2, hn3, hn4⟩ := statusByte_nibbles e.type e.channel htype hchan
  have hδ : t - st.absTick < 4294967296 := by omega
  have hsplit : writeVLQ (t - st.absTick)
      ++ [e.type ||| (e.channel &&& 0x0F), e.data1, e.data2] ++ tail
      = writeVLQ (t - st.absTick)
        ++ ((e.type + e.channel) :: e.data1 :: e.data2 :: tail) := by
    rw [hst]
    simp
  rw [hsplit]
  obtain ⟨w0, wrest, hw⟩ : ∃ w0 wrest, writeVLQ (t - st.absTick) = w0 :: wrest := by
    unfold writeVLQ
    cases (vlqHigh ((t - st.absTick) >>> 7)).reverse with
    | nil => exact ⟨_, _, rfl⟩
    | cons a l => exact ⟨_, _, rfl⟩
  rw [hw, List.cons_append]
  simp only [ptLoop]
  rw [← List.cons_append, ← hw,
    vlq_round_trip (t - st.absTick) _ hδ]
  dsimp only
  have hb1 : ¬(e.type + e.channel < 128) := by omega
  have hb2 : ¬(e.type + e.channel = 255) := by omega
  have hb3 : ¬(e.type + e.channel = 240 ∨ e.type + e.channel = 247) := by omega
  have hb5 : e.type + e.channel < 240 := hn4
  simp only [if_neg hb1, if_neg hb2, if_neg hb3, if_pos hb5, hn1]
  have hb4 : 128 ≤ e.type ∧ e.type ≤ 224 := by
    rcases htype with h | h <;> omega
  have hb6 : e.type ≠ 192 ∧ e.type ≠ 208 := by
    rcases htype with h | h <;> omega
  rw [if_pos hb4, if_pos hb6]
  have habs : st.absTick + (t - st.absTick) = t := by omega
  rw [habs, Nat.mod_eq_of_lt ht]
  unfold mkParsedEvent mkSaved
  rw [hn1, hn2]
  done
theorem ptLoop_emitEvents_aux (sorted : List (Nat × MidiEvent)) :
    ∀ st fuel,
    sorted.Pairwise (fun a b => a.1 ≤ b.1) →
    (∀ p ∈ sorted, st.absTick ≤ p.1 ∧ p.1 < 4294967296 ∧ goodEvent p.2) →
    st.absTick < 4294967296 →
    sorted.length + 2 ≤ fuel →
    (ptLoop fuel (emitEvents st.absTick sorted ++ [0, 0xFF, 0x2F, 0x00]) st).events
        = st.events ++ sorted.map mkSaved
    ∧ (ptLoop fuel (emitEvents st.absTick sorted ++ [0, 0xFF, 0x2F, 0x00]) st).tempos
        = st.tempos := by
  induction sorted with
  | nil =>
    intro st fuel _ _ hlt hf
    rw [emitEvents, List.nil_append, ptLoop_eot st fuel (by omega) hlt]
    simp
  | cons p rest ih =>
    intro st fuel hp hwf hlt hf
    obtain ⟨t, e⟩ := p
    rcases List.pairwise_cons.mp hp with ⟨hhead, hrest⟩
    obtain ⟨hle, htlt, hge⟩ := hwf (t, e) (by simp)
    cases fuel with
    | zero => omega
    | succ f =>
      rw [emitEvents, if_pos (by
        rcases hge.1 with h | h <;> rw [h] <;> exact ⟨by norm_num, by norm_num⟩)]
      have hassoc : writeVLQ (t - st.absTick)
          ++ [e.type ||| (e.channel &&& 0x0F), e.data1] ++ [e.data2]
          ++ emitEvents t rest ++ [0, 0xFF, 0x2F, 0x00]
          = writeVLQ (t - st.absTick)
            ++ [e.type ||| (e.channel &&& 0x0F), e.data1, e.data2]
            ++ (emitEvents t rest ++ [0, 0xFF, 0x2F, 0x00]) := by
        simp
      rw [hassoc, ptLoop_event_step t e _ st f hge hle htlt]
      have hih := ih ⟨t, e.type + e.channel, st.events ++ [mkSaved (t, e)], st.tempos⟩ f
        hrest
        (by
          intro q hq
          refine ⟨hhead q hq, (hwf q (by simp [hq])).2.1, (hwf q (by simp [hq])).2.2⟩)
        htlt
        (by simp at hf ⊢; omega)
      refine ⟨?_, hih.2⟩
      rw [hih.1]
      simp

theorem vlqHigh_length_le : ∀ k v : Nat, v < 2 ^ (7 * k) → (vlqHigh v).length ≤ k := by
  intro k
  induction k with
  | zero =>
    intro v hv
    simp only [Nat.mul_zero, pow_zero, Nat.lt_one_iff] at hv
    rw [hv, vlqHigh]
    simp
  | succ k ih =>
    intro v hv
    rw [vlqHigh]
    by_cases h : v = 0
    · simp [h]
    · rw [dif_neg h]
      simp only [List.length_cons]
      have hlt : v >>> 7 < 2 ^ (7 * k) := by
        rw [Nat.shiftRight_eq_div_pow]
        have h7 : (2 : Nat) ^ 7 = 128 := by norm_num
        have hpow : (2 : Nat) ^ (7 * (k + 1)) = 2 ^ (7 * k) * 128 := by
          rw [show 7 * (k + 1) = 7 * k + 7 from by ring, pow_add]
          norm_num
        rw [h7]
        rw [hpow] at hv
        generalize (2 : Nat) ^ (7 * k) = P at hv ⊢
        omega
      exact Nat.succ_le_succ (ih _ hlt)

theorem writeVLQ_length_le (v : Nat) (hv : v < 4294967296) : (writeVLQ v).length ≤ 5 := by
  unfold writeVLQ
  rw [List.length_append, List.length_reverse]
  have hlt : v >>> 7 < 2 ^ (7 * 4) := by
    rw [Nat.shiftRight_eq_div_pow]
    norm_num
    omega
  have := vlqHigh_length_le 4 _ hlt
  simp only [List.length_cons, List.length_nil]
  omega

theorem emitEvents_length_le (sorted : List (Nat × MidiEvent)) :
    ∀ lastTick, (∀ p ∈ sorted, p.1 < 4294967296) →
    (emitEvents lastTick sorted).length ≤ 8 * sorted.length := by
  induction sorted with
  | nil => intros; simp [emitEvents]
  | cons p rest ih =>
    intro lastTick hp
    obtain ⟨t, e⟩ := p
    rw [emitEvents]
    have h1 : (writeVLQ (t - lastTick)).length ≤ 5 :=
      writeVLQ_length_le _ (by have := hp (t, e) (by simp); omega)
    have h2 := ih t (fun q hq => hp q (by simp [hq]))
    have h3 : (if e.type ≠ 0xC0 ∧ e.type ≠ 0xD0 then [e.data2] else []).length ≤ 1 := by
      split_ifs <;> simp
    simp only [List.length_append, List.length_cons, List.length_nil]
    simp only [List.length_cons] at h3 ⊢
    omega

theorem emitEvents_length_ge (sorted : List (Nat × MidiEvent)) :
    ∀ lastTick, sorted.length ≤ (emitEvents lastTick sorted).length := by
  induction sorted with
  | nil => intros; simp [emitEvents]
  | cons p rest ih =>
    intro lastTick
    obtain ⟨t, e⟩ := p
    rw [emitEvents]
    have h2 := ih t
    simp only [List.length_append, List.length_cons]
    omega

theorem ptLoop_tempoMeta (b2 b1 b0 : Nat) (rest : List Nat) (fuel : Nat)
    (evs : List MidiEvent) (tms : List TempoChange) :
    ptLoop (fuel + 1) (0 :: 0xFF :: 0x51 :: 0x03 :: b2 :: b1 :: b0 :: rest)
        ⟨0, 0, evs, tms⟩
      = ptLoop fuel rest ⟨0, 0, evs, tms ++ [⟨0, (b2 <<< 16) ||| (b1 <<< 8) ||| b0⟩]⟩ :=
  rfl

theorem saveTrackData_eq (events : List MidiEvent) (tempo : ℚ) (tpq : Nat) :
    saveTrackData events tempo tpq
      = 0 :: 0xFF :: 0x51 :: 0x03
          :: ((savedUspq tempo >>> 16) &&& 0xFF)
          :: ((savedUspq tempo >>> 8) &&& 0xFF)
          :: (savedUspq tempo &&& 0xFF)
          :: (emitEvents 0 (sortSaveEvents tpq tempo events) ++ [0, 0xFF, 0x2F, 0x00]) := by
  unfold saveTrackData
  simp [writeVLQ, vlqHigh]

/-- The tempo value the parser reads back from the saved tempo meta
event. -/
def decodedUspq (tempo : ℚ) : Nat :=
  ((savedUspq tempo >>> 16) &&& 0xFF) <<< 16
    ||| ((savedUspq tempo >>> 8) &&& 0xFF) <<< 8
    ||| (savedUspq tempo &&& 0xFF)

theorem sortSaveEvents_pairwise (tpq : Nat) (tempo : ℚ) (events : List MidiEvent) :
    (sortSaveEvents tpq tempo events).Pairwise (fun a b => a.1 ≤ b.1) := by
  refine (List.sorted_insertionSort saveLE _).imp ?_
  intro a b hab
  rw [saveLE_iff] at hab
  omega

theorem ptLoop_saveTrackData (events : List MidiEvent) (tempo : ℚ) (tpq : Nat)
    (hwf : ∀ p ∈ sortSaveEvents tpq tempo events, p.1 < 4294967296 ∧ goodEvent p.2) :
    (ptLoop ((saveTrackData events tempo tpq).length + 1)
        (saveTrackData events tempo tpq) ⟨0, 0, [], []⟩).events
        = (sortSaveEvents tpq tempo events).map mkSaved
    ∧ (ptLoop ((saveTrackData events tempo tpq).length + 1)
        (saveTrackData events tempo tpq) ⟨0, 0, [], []⟩).tempos
        = [⟨0, decodedUspq tempo⟩] := by
  have hlen : (saveTrackData events tempo tpq).length
      = 11 + (emitEvents 0 (sortSaveEvents tpq tempo events)).length := by
    rw [saveTrackData_eq]
    simp
    omega
  have hge := emitEvents_length_ge (sortSaveEvents tpq tempo events) 0
  have hstep : ptLoop ((saveTrackData events tempo tpq).length + 1)
      (saveTrackData events tempo tpq) ⟨0, 0, [], []⟩
      = ptLoop (10 + (emitEvents 0 (sortSaveEvents tpq tempo events)).length + 1)
          (emitEvents 0 (sortSaveEvents tpq tempo events) ++ [0, 0xFF, 0x2F, 0x00])
          ⟨0, 0, [], [⟨0, decodedUspq tempo⟩]⟩ := by
    rw [hlen, show 11 + (emitEvents 0 (sortSaveEvents tpq tempo events)).length + 1
      = (10 + (emitEvents 0 (sortSaveEvents tpq tempo events)).length + 1) + 1 from by omega]
    conv =>
      lhs
      rw [saveTrackData_eq]
    rw [ptLoop_tempoMeta]
    rfl
  have haux := ptLoop_emitEvents_aux (sortSaveEvents tpq tempo events)
    ⟨0, 0, [], [⟨0, decodedUspq tempo⟩]⟩
    (10 + (emitEvents 0 (sortSaveEvents tpq tempo events)).length + 1)
    (sortSaveEvents_pairwise tpq tempo events)
    (by
      intro p hp
      exact ⟨Nat.zero_le _, (hwf p hp).1, (hwf p hp).2⟩)
    (by norm_num)
    (by omega)
  dsimp only at haux
  refine ⟨?_, ?_⟩
  · rw [hstep, haux.1]
    simp
  · rw [hstep, haux.2]

theorem saveTrackData_length_lt (events : List MidiEvent) (tempo : ℚ) (tpq : Nat)
    (hwf : ∀ p ∈ sortSaveEvents tpq tempo events, p.1 < 4294967296 ∧ goodEvent p.2)
    (hn : events.length < 268435456) :
    (saveTrackData events tempo tpq).length < 4294967296 := by
  have hlen : (saveTrackData events tempo tpq).length
      = 11 + (emitEvents 0 (sortSaveEvents tpq tempo events)).length := by
    rw [saveTrackData_eq]
    simp
    omega
  have hl1 := emitEvents_length_le (sortSaveEvents tpq tempo events) 0
    (fun p hp => (hwf p hp).1)
  have hl2 : (sortSaveEvents tpq tempo events).length = events.length := by
    unfold sortSaveEvents
    rw [List.length_insertionSort, List.length_map]
  rw [hlen]
  rw [hl2] at hl1
  omega

theorem parseTrack_save (events : List MidiEvent) (tempo : ℚ) (tpq : Nat)
    (hwf : ∀ p ∈ sortSaveEvents tpq tempo events, p.1 < 4294967296 ∧ goodEvent p.2)
    (hn : events.length < 268435456) :
    ∃ st : TrackState,
      parseTrack ([77, 84, 114, 107]
          ++ writeBE32 ((saveTrackData events tempo tpq).length % 4294967296)
          ++ saveTrackData events tempo tpq) [] []
        = some (st, [])
      ∧ st.events = (sortSaveEvents tpq tempo events).map mkSaved
      ∧ st.tempos = [⟨0, decodedUspq tempo⟩] := by
  have hL := saveTrackData_length_lt events tempo tpq hwf hn
  rw [Nat.mod_eq_of_lt hL]
  refine ⟨ptLoop ((saveTrackData events tempo tpq).length + 1)
    (saveTrackData events tempo tpq) ⟨0, 0, [], []⟩, ?_,
    (ptLoop_saveTrackData events tempo tpq hwf).1,
    (ptLoop_saveTrackData events tempo tpq hwf).2⟩
  unfold writeBE32
  simp only [List.cons_append, List.nil_append]
  rw [parseTrack]
  rw [if_pos ⟨rfl, rfl, rfl, rfl⟩]
  rw [readBE32_writeBE32 _ hL]
  rw [if_neg (lt_irrefl _)]
  rw [List.take_length, List.drop_length]

theorem parseTracks_save (events : List MidiEvent) (tempo : ℚ) (tpq : Nat)
    (hwf : ∀ p ∈ sortSaveEvents tpq tempo events, p.1 < 4294967296 ∧ goodEvent p.2)
    (hn : events.length < 268435456) :
    parseTracks 1 ([77, 84, 114, 107]
        ++ writeBE32 ((saveTrackData events tempo tpq).length % 4294967296)
        ++ saveTrackData events tempo tpq) [] []
      = some ((sortSaveEvents tpq tempo events).map mkSaved,
          [⟨0, decodedUspq tempo⟩]) := by
  obtain ⟨st, hst, hev, htm⟩ := parseTrack_save events tempo tpq hwf hn
  show parseTracks (0 + 1) _ [] [] = _
  rw [parseTracks.eq_def]
  simp only [hst, hev, htm]
  rw [parseTracks.eq_def]

theorem parseHeader_save (events : List MidiEvent) (tempo : ℚ) (tpq : Nat)
    (htpq : tpq < 32768) :
    parseHeader (saveBytes events tempo tpq)
      = some (⟨0, 1, tpq⟩, [77, 84, 114, 107]
          ++ writeBE32 ((saveTrackData events tempo tpq).length % 4294967296)
          ++ saveTrackData events tempo tpq) := by
  unfold saveBytes
  rw [show writeBE32 6 = [0, 0, 0, 6] from rfl,
    show writeBE16 0 = [0, 0] from rfl,
    show writeBE16 1 = [0, 1] from rfl]
  unfold writeBE16
  simp only [List.cons_append, List.nil_append, List.append_assoc]
  rw [parseHeader]
  rw [if_pos ⟨rfl, rfl, rfl, rfl⟩]
  rw [show readBE32 0 0 0 6 = 6 from rfl]
  rw [if_neg (by norm_num)]
  rw [readBE16_writeBE16 tpq (by omega)]
  have hmask : tpq &&& 0x8000 = 0 := by
    rw [show (0x8000 : Nat) = 2 ^ 15 from by norm_num, Nat.and_two_pow,
      Nat.testBit_eq_false_of_lt (by norm_num; omega)]
    simp
  rw [if_neg (by simp [hmask])]
  rw [show readBE16 0 0 = 0 from rfl, show readBE16 0 1 = 1 from rfl]
  norm_num

theorem parseMidi_save (events : List MidiEvent) (tempo : ℚ) (tpq : Nat)
    (hwf : ∀ p ∈ sortSaveEvents tpq tempo events, p.1 < 4294967296 ∧ goodEvent p.2)
    (htpq : tpq < 32768) (hn : events.length < 268435456) :
    parseMidi (saveBytes events tempo tpq)
      = some (tpq, computeTimesEvents tpq [⟨0, decodedUspq tempo⟩]
          ((sortSaveEvents tpq tempo events).map mkSaved)) := by
  unfold parseMidi
  rw [parseHeader_save events tempo tpq htpq]
  dsimp only
  rw [parseTracks_save events tempo tpq hwf hn]
  dsimp only
  have hsorted : ((sortSaveEvents tpq tempo events).map mkSaved).Pairwise
      (fun a b => a.tickTime ≤ b.tickTime) :=
    List.Pairwise.map mkSaved (fun a b h => h) (sortSaveEvents_pairwise tpq tempo events)
  rw [List.Sorted.insertionSort_eq hsorted]

theorem eventTick_spec (tpq : Nat) (tempo : ℚ) (e : MidiEvent) (h0 : 0 ≤ e.secondTime)
    (htempo : 0 < tempo) (hr : e.secondTime * tpq * tempo / 60 < 4294967296) :
    eventTick tpq tempo e < 4294967296
    ∧ |(eventTick tpq tempo e : ℚ) - e.secondTime * tpq * tempo / 60| < 1 := by
  have hconv : 0 ≤ e.secondTime * tpq * tempo / 60 :=
    div_nonneg (mul_nonneg (mul_nonneg h0 (Nat.cast_nonneg tpq)) (le_of_lt htempo))
      (by norm_num)
  have htr : ratTrunc (e.secondTime * tpq * tempo / 60)
      = ⌊e.secondTime * tpq * tempo / 60⌋ := by
    unfold ratTrunc
    rw [if_pos hconv]
  have hfl0 : (0 : Int) ≤ ⌊e.secondTime * tpq * tempo / 60⌋ := Int.floor_nonneg.mpr hconv
  have hcast : ((eventTick tpq tempo e : Nat) : ℚ)
      = ((⌊e.secondTime * tpq * tempo / 60⌋ : Int) : ℚ) := by
    unfold eventTick
    rw [htr]
    rw [show (((⌊e.secondTime * tpq * tempo / 60⌋.toNat : Nat)) : ℚ)
      = ((⌊e.secondTime * tpq * tempo / 60⌋.toNat : Int) : ℚ) from by push_cast; ring]
    rw [Int.toNat_of_nonneg hfl0]
  constructor
  · unfold eventTick
    rw [htr]
    have hlt : ⌊e.secondTime * tpq * tempo / 60⌋ < (4294967296 : Int) := by
      have := Int.floor_le (e.secondTime * tpq * tempo / 60)
      have h2 : ((⌊e.secondTime * tpq * tempo / 60⌋ : Int) : ℚ) < 4294967296 := by
        calc ((⌊e.secondTime * tpq * tempo / 60⌋ : Int) : ℚ)
            ≤ e.secondTime * tpq * tempo / 60 := this
          _ < 4294967296 := hr
      exact_mod_cast h2
    omega
  · rw [hcast]
    have h1 := Int.floor_le (e.secondTime * tpq * tempo / 60)
    have h2 := Int.sub_one_lt_floor (e.secondTime * tpq * tempo / 60)
    rw [abs_lt]
    constructor <;> linarith

/-- C3: saving well-formed note events at a given tempo and
ticksPerQuarter and re-parsing the produced bytes yields the same
counts of note-on and note-off events, and every re-parsed event
matches an input event in type, channel and data bytes with its tick
within one tick of secondTime * ticksPerQuarter * tempo / 60. The
hypotheses are the spec's in-range assumptions: a positive tempo, a
tick-division ticksPerQuarter (below 0x8000), ticks that fit in uint32,
and a file that fits well within range. -/
theorem midi_save_parse_round_trip (events : List MidiEvent) (tempo : ℚ) (tpq : Nat)
    (htempo : 0 < tempo) (htpq : tpq < 32768) (hn : events.length < 268435456)
    (hwf : ∀ e ∈ events, goodEvent e ∧ 0 ≤ e.secondTime)
    (hrange : ∀ e ∈ events, e.secondTime * tpq * tempo / 60 < 4294967296) :
    ∃ parsed : List MidiEvent,
      parseMidi (saveBytes events tempo tpq) = some (tpq, parsed)
      ∧ parsed.countP MidiEvent.isNoteOn = events.countP MidiEvent.isNoteOn
      ∧ parsed.countP MidiEvent.isNoteOff = events.countP MidiEvent.isNoteOff
      ∧ ∀ p ∈ parsed, ∃ e ∈ events,
          p.type = e.type ∧ p.channel = e.channel ∧ p.data1 = e.data1 ∧ p.data2 = e.data2
          ∧ |(p.tickTime : ℚ) - e.secondTime * tpq * tempo / 60| < 1 := by
  have hmem : ∀ p ∈ sortSaveEvents tpq tempo events,
      ∃ e ∈ events, p = (eventTick tpq tempo e, e) := by
    intro p hp
    unfold sortSaveEvents at hp
    rw [List.mem_insertionSort] at hp
    rcases List.mem_map.mp hp with ⟨e, he, rfl⟩
    exact ⟨e, he, rfl⟩
  have hwfs : ∀ p ∈ sortSaveEvents tpq tempo events,
      p.1 < 4294967296 ∧ goodEvent p.2 := by
    intro p hp
    obtain ⟨e, he, rfl⟩ := hmem p hp
    refine ⟨(eventTick_spec tpq tempo e (hwf e he).2 htempo (hrange e he)).1,
      (hwf e he).1⟩
  refine ⟨_, parseMidi_save events tempo tpq hwfs htpq hn, ?_, ?_, ?_⟩
  · unfold computeTimesEvents
    rw [List.countP_map, List.countP_map]
    have hperm : (sortSaveEvents tpq tempo events).Perm
        (events.map (fun e => (eventTick tpq tempo e, e))) :=
      List.perm_insertionSort saveLE _
    rw [hperm.countP_eq, List.countP_map]
    apply List.countP_congr
    intro e he
    simp [MidiEvent.isNoteOn, mkSaved]
  · unfold computeTimesEvents
    rw [List.countP_map, List.countP_map]
    have hperm : (sortSaveEvents tpq tempo events).Perm
        (events.map (fun e => (eventTick tpq tempo e, e))) :=
      List.perm_insertionSort saveLE _
    rw [hperm.countP_eq, List.countP_map]
    apply List.countP_congr
    intro e he
    simp [MidiEvent.isNoteOff, mkSaved]
  · intro p hp
    unfold computeTimesEvents at hp
    rcases List.mem_map.mp hp with ⟨q, hq, rfl⟩
    rcases List.mem_map.mp hq with ⟨r, hr, rfl⟩
    obtain ⟨e, he, rfl⟩ := hmem r hr
    refine ⟨e, he, rfl, rfl, rfl, rfl, ?_⟩
    exact (eventTick_spec tpq tempo e (hwf e he).2 htempo (hrange e he)).2

/-- Witness for C3: a note-on at 0 s and a note-off at 1/2 s, saved at
120 BPM and 480 ticks per quarter. -/
theorem midi_save_parse_round_trip_witness :
    ∃ parsed : List MidiEvent,
      parseMidi (saveBytes [⟨0, 0, 0x90, 0, 60, 100⟩, ⟨0, 1/2, 0x80, 0, 60, 64⟩] 120 480)
        = some (480, parsed)
      ∧ parsed.countP MidiEvent.isNoteOn
          = ([⟨0, 0, 0x90, 0, 60, 100⟩, ⟨0, 1/2, 0x80, 0, 60, 64⟩] : List MidiEvent).countP
              MidiEvent.isNoteOn
      ∧ parsed.countP MidiEvent.isNoteOff
          = ([⟨0, 0, 0x90, 0, 60, 100⟩, ⟨0, 1/2, 0x80, 0, 60, 64⟩] : List MidiEvent).countP
              MidiEvent.isNoteOff
      ∧ ∀ p ∈ parsed, ∃ e ∈ ([⟨0, 0, 0x90, 0, 60, 100⟩,
            ⟨0, 1/2, 0x80, 0, 60, 64⟩] : List MidiEvent),
          p.type = e.type ∧ p.channel = e.channel ∧ p.data1 = e.data1 ∧ p.data2 = e.data2
          ∧ |(p.tickTime : ℚ) - e.secondTime * 480 * 120 / 60| < 1 :=
  midi_save_parse_round_trip [⟨0, 0, 0x90, 0, 60, 100⟩, ⟨0, 1/2, 0x80, 0, 60, 64⟩] 120 480
    (by norm_num) (by norm_num) (by norm_num)
    (by
      intro e he
      simp only [List.mem_cons, List.not_mem_nil, or_false] at he
      rcases he with rfl | rfl <;>
        exact ⟨⟨by norm_num, by norm_num, by norm_num, by norm_num⟩, by norm_num⟩)
    (by
      intro e he
      simp only [List.mem_cons, List.not_mem_nil, or_false] at he
      rcases he with rfl | rfl <;> norm_num)

end ClapTrap
